import Mathlib

/-!
Verification of the constraint-solving engine of the battleship-solitaire
repository (src/battle.py, src/battle_sol.py).

The Python engine is shallowly embedded as follows.  A `Variable` carries its
original domain (`_dom`), current domain (`_curdom`) and optional assigned
value (`_value`).  Variables are referenced by index (`VarId`) into a state
list, which models Python's object identity.  The class-wide
`Variable.undoDict` is a field `undo` of the search state, an association list
from reason keys `(reasonVar, reasonVal)` to the list of `(variable, value)`
pairs pruned under that reason.  Printing an error message is modelled by
incrementing the `errs` counter.  The solution sink (battle.py appends to the
global `storages`) is modelled by appending the complete assignment to `sols`.
The `trace` field is a ghost observation of the Select step of the search: it
records, at each pop of the unassigned-variable list, the selected variable
together with the pool it was popped from; nothing else reads it.
-/

namespace Battle

abbrev Val := Int
abbrev VarId := Nat

/-- State of one `Variable` object: original domain `_dom`, current domain
`_curdom`, assigned value `_value`. -/
structure Variable where
  dom : List Val
  curdom : List Val
  value : Option Val
deriving Repr, DecidableEq

/-- Model of `Variable.curDomain`: the assigned value as a singleton if assigned,
otherwise the live current domain. -/
def Variable.curDomain (v : Variable) : List Val :=
  match v.value with
  | some x => [x]
  | none => v.curdom

/-- Model of `Variable.curDomainSize`: 1 if assigned, else the length of `_curdom`. -/
def Variable.curDomainSize (v : Variable) : Nat :=
  match v.value with
  | some _ => 1
  | none => v.curdom.length

/-- Model of `Variable.inCurDomain`: equality with the assigned value if assigned,
else membership in `_curdom`. -/
def Variable.inCurDomain (v : Variable) (x : Val) : Bool :=
  match v.value with
  | some y => x == y
  | none => v.curdom.contains x

/-- The constraints of battle.py used by the engine: `TableConstraint`
(explicit satisfying tuples, positionally aligned with the ordered scope) and
`NValuesConstraint` (number of scope variables taking a value in `required`
lies in `[lb, ub]`). -/
inductive Constraint where
  | table (scope : List VarId) (satAssignments : List (List Val))
  | nvalues (scope : List VarId) (required : List Val) (lb ub : Int)
deriving Repr, DecidableEq

def Constraint.scope : Constraint → List VarId
  | .table sc _ => sc
  | .nvalues sc _ _ _ => sc

/-- A CSP is its list of constraints; constraints are referenced by index,
modelling Python object identity. -/
abbrev CSP := List Constraint

def emptyConstraint : Constraint := .table [] []

/-- Search state: the variable objects, the class-wide undo dictionary, the
recorded solutions, the ghost selection trace, and the count of error
messages printed so far. -/
structure SState where
  vars : List Variable
  undo : List ((VarId × Val) × List (VarId × Val))
  sols : List (List (Option Val))
  trace : List (VarId × List VarId)
  errs : Nat
deriving Repr, DecidableEq

def defaultVar : Variable := ⟨[], [], none⟩

def SState.var (s : SState) (i : VarId) : Variable := s.vars.getD i defaultVar

/-- Model of `Variable.setValue`: if the value is neither `None` nor in the original
domain, print an error message and leave the assignment unchanged; otherwise
set the assigned value. -/
def setValue (s : SState) (i : VarId) (val : Option Val) : SState :=
  match val with
  | none => { s with vars := s.vars.set i { s.var i with value := none } }
  | some x =>
    if x ∈ (s.var i).dom then
      { s with vars := s.vars.set i { s.var i with value := some x } }
    else
      { s with errs := s.errs + 1 }

def undoLookup (u : List ((VarId × Val) × List (VarId × Val))) (k : VarId × Val) :
    Option (List (VarId × Val)) :=
  match u with
  | [] => none
  | (k', e) :: rest => if k' = k then some e else undoLookup rest k

/-- Append a pruned pair under a reason key, creating the key if absent
(mirrors `Variable.pruneValue`'s update of `undoDict`). -/
def undoAdd (u : List ((VarId × Val) × List (VarId × Val))) (k : VarId × Val)
    (p : VarId × Val) : List ((VarId × Val) × List (VarId × Val)) :=
  match u with
  | [] => [(k, [p])]
  | (k', e) :: rest => if k' = k then (k', e ++ [p]) :: rest else (k', e) :: undoAdd rest k p

def undoDel (u : List ((VarId × Val) × List (VarId × Val))) (k : VarId × Val) :
    List ((VarId × Val) × List (VarId × Val)) :=
  u.filter fun kv => decide (kv.1 ≠ k)

/-- Model of `Variable.pruneValue`: remove the value from `_curdom` (Python
`list.remove`; if the value is not present the exception is caught and an
error message is printed, leaving the list unchanged), then append the pair
to the undo dictionary under the reason key — the append happens in both
cases. -/
def pruneValue (s : SState) (i : VarId) (x : Val) (rv : VarId) (rval : Val) : SState :=
  { s with
    vars := s.vars.set i { s.var i with curdom := (s.var i).curdom.erase x },
    errs := if x ∈ (s.var i).curdom then s.errs else s.errs + 1,
    undo := undoAdd s.undo (rv, rval) (i, x) }

/-- Model of `Variable.restoreVal`: append the value back to `_curdom`. -/
def restoreVal (s : SState) (i : VarId) (x : Val) : SState :=
  { s with vars := s.vars.set i { s.var i with curdom := (s.var i).curdom ++ [x] } }

def restoreList (s : SState) (ps : List (VarId × Val)) : SState :=
  ps.foldl (fun s' p => restoreVal s' p.1 p.2) s

/-- Model of `Variable.restoreValues`: if the reason key is present, restore every
logged pair in order and delete the key; otherwise do nothing. -/
def restoreValues (s : SState) (rv : VarId) (rval : Val) : SState :=
  match undoLookup s.undo (rv, rval) with
  | none => s
  | some ps => { restoreList s ps with undo := undoDel s.undo (rv, rval) }

/-- The `valsOK` test of `NValuesConstraint.hasSupport`: with `rv_count` hits among
the assigned pairs, `least = rv_count + arity - len(vals)` and
`most = rv_count`; the test is `lb ≤ least and most ≤ ub`. -/
def valsOK (arity : Nat) (required : List Val) (lb ub : Int) (l : List (VarId × Val)) : Bool :=
  let rv_count : Int := l.countP fun p => p.2 ∈ required
  decide (lb ≤ rv_count + (arity : Int) - l.length) && decide (rv_count ≤ ub)

/-- Model of `findvals_` of battle.py, specialised to `partialTestfn = finalTestfn =
valsOK` as `NValuesConstraint.hasSupport` uses it.  The source pops variables
from the END of its (descending-sorted) list; here `rem` is already in
consumption order and is consumed from the head. -/
def findvalsR (s : SState) (arity : Nat) (required : List Val) (lb ub : Int) :
    List VarId → List (VarId × Val) → Bool
  | [], assignment => valsOK arity required lb ub assignment
  | w :: ws, assignment =>
    ((s.var w).curDomain).any fun x =>
      valsOK arity required lb ub (assignment ++ [(w, x)]) &&
      findvalsR s arity required lb ub ws (assignment ++ [(w, x)])

/-- Model of `hasSupport` of the two constraint classes.  For a table constraint: some
satisfying tuple assigns `x` at the variable's scope position and a value in
the current domain at every other position.  For an NValues constraint: the
bounded feasibility search `findvals` starting from `[(var, val)]` over the
rest of the scope.  The source sorts the remaining variables descending by
current-domain size and consumes from the end (smallest domain first); the
model sorts ascending and consumes from the head. -/
def Constraint.hasSupport (c : Constraint) (s : SState) (i : VarId) (x : Val) : Bool :=
  match c with
  | .table scope tuples =>
    if i ∈ scope then
      tuples.any fun t =>
        t.getD (scope.indexOf i) 0 == x &&
        (List.range scope.length).all fun j =>
          j == scope.indexOf i || (s.var (scope.getD j 0)).inCurDomain (t.getD j 0)
    else true
  | .nvalues scope required lb ub =>
    if i ∈ scope then
      findvalsR s scope.length required lb ub
        ((scope.erase i).mergeSort fun a b =>
          decide ((s.var a).curDomainSize ≤ (s.var b).curDomainSize))
        [(i, x)]
    else true

/-- Model of `check` of the two constraint classes: true if any scope variable is
unassigned, otherwise the predicate on the fully assigned tuple. -/
def Constraint.check (c : Constraint) (s : SState) : Bool :=
  match c with
  | .table scope tuples =>
    if scope.all fun i => (s.var i).value.isSome then
      tuples.contains (scope.map fun i => ((s.var i).value).getD 0)
    else true
  | .nvalues scope required lb ub =>
    if scope.all fun i => (s.var i).value.isSome then
      let rv_count : Int :=
        (scope.map fun i => ((s.var i).value).getD 0).countP fun v => v ∈ required
      decide (lb ≤ rv_count) && decide (rv_count ≤ ub)
    else true

def constraintsOfAux (cs : List Constraint) (i : VarId) (j : Nat) : List Nat :=
  match cs with
  | [] => []
  | c :: rest => (c.scope.filter fun w => w == i).map (fun _ => j) ++ constraintsOfAux rest i (j + 1)

/-- Model of `CSP.constraintsOf`: the precomputed bucket of constraints whose scope
contains the variable, in constraint order, one entry per scope occurrence
(the source appends the constraint once per occurrence of the variable in its
scope). -/
def constraintsOf (csp : CSP) (i : VarId) : List Nat := constraintsOfAux csp i 0

/-- The recheck-enqueueing loop of `GacEnforce`: for each constraint of the
pruned variable, append it unless it is the constraint being processed or is
already in the (growing) worklist. -/
def enqueueRechecks (csp : CSP) (cIdx : Nat) (i : VarId) (wl : List Nat) : List Nat :=
  (constraintsOf csp i).foldl (fun acc r => if r ≠ cIdx ∧ r ∉ acc then acc ++ [r] else acc) wl

/-- Inner value loop of `GacEnforce` for one scope variable: prune each
unsupported value (logged under the reason pair), returning a wipeout flag as
soon as `curDomainSize()` hits 0, and enqueueing rechecks after each prune. -/
def enforceVals (csp : CSP) (cIdx : Nat) (i : VarId) (vals : List Val) (wl : List Nat)
    (rv : VarId) (rval : Val) (s : SState) : SState × List Nat × Bool :=
  match vals with
  | [] => (s, wl, false)
  | x :: rest =>
    if (csp.getD cIdx emptyConstraint).hasSupport s i x then
      enforceVals csp cIdx i rest wl rv rval s
    else
      if ((pruneValue s i x rv rval).var i).curDomainSize = 0 then
        (pruneValue s i x rv rval, wl, true)
      else
        enforceVals csp cIdx i rest (enqueueRechecks csp cIdx i wl) rv rval
          (pruneValue s i x rv rval)

/-- Scope loop of `GacEnforce` for one popped constraint: process each scope
variable's current-domain snapshot in turn, stopping at a wipeout. -/
def enforceScope (csp : CSP) (cIdx : Nat) (scope : List VarId) (wl : List Nat)
    (rv : VarId) (rval : Val) (s : SState) : SState × List Nat × Bool :=
  match scope with
  | [] => (s, wl, false)
  | i :: rest =>
    match enforceVals csp cIdx i ((s.var i).curDomain) wl rv rval s with
    | (s₁, wl₁, true) => (s₁, wl₁, true)
    | (s₁, wl₁, false) => enforceScope csp cIdx rest wl₁ rv rval s₁

/-- Model of `GacEnforce` of battle.py (`AC3Enforce` of battle_sol.py): pop constraints
from the worklist until it drains, pruning unsupported values under the
reason pair; `some (true, s)` is the immediate wipeout return (`'OWO'` /
`'DE'`), `some (false, s)` the success return (`'OK'` / `'Success'`), `none`
is fuel exhaustion of the model (the source loop has no bound). -/
def gacEnforce : Nat → CSP → List Nat → VarId → Val → SState → Option (Bool × SState)
  | 0, _, _, _, _, _ => none
  | fuel + 1, csp, wl, rv, rval, s =>
    match wl with
    | [] => some (false, s)
    | cIdx :: rest =>
      match enforceScope csp cIdx (csp.getD cIdx emptyConstraint).scope rest rv rval s with
      | (s₁, _, true) => some (true, s₁)
      | (s₁, wl₁, false) => gacEnforce fuel csp wl₁ rv rval s₁

mutual

/-- Model of `GAC` of battle.py (`AC3` of battle_sol.py).  With an empty
unassigned-variable list, invoke the solution sink on the complete assignment
and return.  Otherwise pop the front variable, try every value of its
current-domain snapshot (`gacValLoop`), then unassign it and append it to the
BACK of the pool.  Returns the final pool (the Python list is mutated in
place and shared with the caller) and state. -/
def gac : Nat → List VarId → CSP → SState → Option (List VarId × SState)
  | 0, _, _, _ => none
  | fuel + 1, l, csp, s =>
    match l with
    | [] => some ([], { s with sols := s.sols ++ [s.vars.map Variable.value] })
    | i :: rest =>
      match gacValLoop fuel i ((s.var i).curDomain) rest csp
          { s with trace := s.trace ++ [(i, l)] } with
      | none => none
      | some (pool, s₁) => some (pool ++ [i], setValue s₁ i none)

/-- The value loop of one `GAC` frame: run one attempt (`gacTryVal`) per value
of the snapshot, threading the pool and state. -/
def gacValLoop : Nat → VarId → List Val → List VarId → CSP → SState → Option (List VarId × SState)
  | 0, _, _, _, _, _ => none
  | fuel + 1, i, vals, rest, csp, s =>
    match vals with
    | [] => some (rest, s)
    | x :: more =>
      match gacTryVal fuel i x rest csp s with
      | none => none
      | some (rest', s') => gacValLoop fuel i more rest' csp s'

/-- One `(variable, value)` attempt of `GAC`: assign, propagate seeded with
the variable's constraints, recurse if no wipeout, and always restore the
values pruned under this reason pair on the way out. -/
def gacTryVal : Nat → VarId → Val → List VarId → CSP → SState → Option (List VarId × SState)
  | 0, _, _, _, _, _ => none
  | fuel + 1, i, x, rest, csp, s =>
    match gacEnforce (fuel + 1) csp (constraintsOf csp i) i x (setValue s i (some x)) with
    | none => none
    | some (true, s₂) => some (rest, restoreValues s₂ i x)
    | some (false, s₂) =>
      match gac fuel rest csp s₂ with
      | none => none
      | some (pool, s₃) => some (pool, restoreValues s₃ i x)

end

def initVar (d : List Val) : Variable := ⟨d, d, none⟩

/-- The state of a freshly constructed CSP: every variable unassigned with
current domain equal to its original domain, empty undo dictionary. -/
def initState (doms : List (List Val)) : SState := ⟨doms.map initVar, [], [], [], 0⟩

/-- Interpret a recorded solution (one `Option Val` per variable) as a state,
for evaluating `check`. -/
def stateOfSol (sol : List (Option Val)) : SState := ⟨sol.map fun v => ⟨[], [], v⟩, [], [], [], 0⟩

/-- A recorded solution satisfies the CSP when every constraint's `check`
passes on it. -/
def checkSolution (csp : CSP) (sol : List (Option Val)) : Bool :=
  csp.all fun c => c.check (stateOfSol sol)

/-!
Specification-side transcription of the propagation worklist loop, following
the words of the spec (§4.4): the wipeout test is "this empties v's current
domain" (stated on `currentDomain`, which for an assigned variable is the
singleton of its assigned value), and the constraints to re-enqueue are
"every constraint referencing the pruned variable other than c that is not
already enqueued" — one candidate per referencing constraint.  The code side
instead tests `curDomainSize() == 0` and walks the precomputed
`constraintsOf` bucket, which lists a constraint once per occurrence of the
variable in its scope.  Claim C4 is settled by proving the two functions
equal.
-/

/-- The constraints referencing a variable, one index each, in constraint
order (the spec's "every constraint referencing the pruned variable"). -/
def specConstraintsReferencing (cs : List Constraint) (i : VarId) (j : Nat) : List Nat :=
  match cs with
  | [] => []
  | c :: rest =>
    (if i ∈ c.scope then [j] else []) ++ specConstraintsReferencing rest i (j + 1)

/-- Spec wording of the re-enqueue step: append every constraint referencing
the pruned variable, other than the one being processed, that is not already
in the worklist. -/
def specRechecks (csp : CSP) (cIdx : Nat) (i : VarId) (wl : List Nat) : List Nat :=
  (specConstraintsReferencing csp i 0).foldl
    (fun acc r => if r ≠ cIdx ∧ r ∉ acc then acc ++ [r] else acc) wl

/-- Spec wording of the inner value loop: prune each unsupported value; fail
with wipeout as soon as a prune leaves the pruned variable's current domain
empty. -/
def specEnforceVals (csp : CSP) (cIdx : Nat) (i : VarId) (vals : List Val) (wl : List Nat)
    (rv : VarId) (rval : Val) (s : SState) : SState × List Nat × Bool :=
  match vals with
  | [] => (s, wl, false)
  | x :: rest =>
    if (csp.getD cIdx emptyConstraint).hasSupport s i x then
      specEnforceVals csp cIdx i rest wl rv rval s
    else
      if ((pruneValue s i x rv rval).var i).curDomain = [] then
        (pruneValue s i x rv rval, wl, true)
      else
        specEnforceVals csp cIdx i rest (specRechecks csp cIdx i wl) rv rval
          (pruneValue s i x rv rval)

/-- Spec wording of the per-constraint pass: each scope variable, each value
currently in its current domain. -/
def specEnforceScope (csp : CSP) (cIdx : Nat) (scope : List VarId) (wl : List Nat)
    (rv : VarId) (rval : Val) (s : SState) : SState × List Nat × Bool :=
  match scope with
  | [] => (s, wl, false)
  | i :: rest =>
    match specEnforceVals csp cIdx i ((s.var i).curDomain) wl rv rval s with
    | (s₁, wl₁, true) => (s₁, wl₁, true)
    | (s₁, wl₁, false) => specEnforceScope csp cIdx rest wl₁ rv rval s₁

/-- Spec wording of the enforcer: pop one constraint while the worklist is
non-empty, fail immediately on wipeout, succeed once the worklist drains. -/
def gacEnforceSpec : Nat → CSP → List Nat → VarId → Val → SState → Option (Bool × SState)
  | 0, _, _, _, _, _ => none
  | fuel + 1, csp, wl, rv, rval, s =>
    match wl with
    | [] => some (false, s)
    | cIdx :: rest =>
      match specEnforceScope csp cIdx (csp.getD cIdx emptyConstraint).scope rest rv rval s with
      | (s₁, _, true) => some (true, s₁)
      | (s₁, wl₁, false) => gacEnforceSpec fuel csp wl₁ rv rval s₁

/-- The selection discipline asserted by claim C10: every recorded selection
picks, from the pool it was popped from, the variable that comes earliest in
the originally supplied order. -/
def selectionEarliest (original : List VarId) (tr : List (VarId × List VarId)) : Bool :=
  tr.all fun e => e.2.all fun w => original.indexOf e.1 ≤ original.indexOf w

/-- Number of copies of a value in a variable's raw current-domain list. -/
def cnt (s : SState) (i : VarId) (x : Val) : Nat := (s.var i).curdom.count x

/-- The keys of the undo dictionary. -/
def undoKeys (s : SState) : List (VarId × Val) := s.undo.map Prod.fst

/-- Add a batch of pruned pairs under one reason key. -/
def undoAddAll (u : List ((VarId × Val) × List (VarId × Val))) (k : VarId × Val)
    (ps : List (VarId × Val)) : List ((VarId × Val) × List (VarId × Val)) :=
  ps.foldl (fun u' p => undoAdd u' k p) u

/-- Structural invariant of a healthy state: every current-domain value and
every assigned value lies in the variable's original domain. -/
def Qinv (s : SState) : Prop :=
  ∀ v ∈ s.vars, (∀ x ∈ v.curdom, x ∈ v.dom) ∧ ∀ y, v.value = some y → y ∈ v.dom

/-- The ghost trace grew by entries that each select the head of the pool
they were recorded with. -/
def TraceExt (s r : SState) : Prop :=
  ∃ t, r.trace = s.trace ++ t ∧ ∀ e ∈ t, e.2.head? = some e.1

/-- Net effect of a balanced search fragment on the state: original domains,
the undo dictionary and the variable count are untouched, the error count is
monotone, and every current-domain value count can only grow, by at most the
number of error messages printed (each failed `list.remove` inside
`pruneValue` is matched by one extra restored copy). -/
def CoreRel (s r : SState) : Prop :=
  (∀ j, (r.var j).dom = (s.var j).dom) ∧
  r.undo = s.undo ∧
  s.errs ≤ r.errs ∧
  (∀ j x, cnt s j x ≤ cnt r j x ∧ cnt r j x + s.errs ≤ cnt s j x + r.errs) ∧
  Qinv r ∧
  TraceExt s r ∧
  r.vars.length = s.vars.length

/-- Net effect of a completed `gac` call: a balanced fragment that also
preserves every assignment. -/
def GacRel (s r : SState) : Prop :=
  CoreRel s r ∧ ∀ j, (r.var j).value = (s.var j).value

/-- Net effect of one value attempt (or a run of attempts) on variable `i`:
a balanced fragment preserving every other variable's assignment. -/
def TryRel (i : VarId) (s r : SState) : Prop :=
  CoreRel s r ∧ ∀ j, j ≠ i → (r.var j).value = (s.var j).value

/-- Effect of a propagation pass with reason key `k` and prune log `E`: no
assignment changes, the undo dictionary gains exactly the pairs of `E` under
`k`, and per-value current-domain counts drop by at most the matching
entries of `E`, the slack being exactly the number of failed removes. -/
def EnfRel (k : VarId × Val) (E : List (VarId × Val)) (s r : SState) : Prop :=
  (∀ j, (r.var j).value = (s.var j).value) ∧
  (∀ j, (r.var j).dom = (s.var j).dom) ∧
  r.undo = undoAddAll s.undo k E ∧
  s.errs ≤ r.errs ∧
  (∀ j x, cnt r j x ≤ cnt s j x ∧ cnt s j x ≤ cnt r j x + E.count (j, x) ∧
    cnt r j x + E.count (j, x) + s.errs ≤ cnt s j x + r.errs) ∧
  (∀ p ∈ E, p.2 ∈ (s.var p.1).dom) ∧
  r.sols = s.sols ∧ r.trace = s.trace ∧ r.vars.length = s.vars.length ∧
  Qinv r

/-- Preconditions of a `gac` call: the pool has no duplicates, its variables
are unassigned, every undo key's reason variable is currently assigned, and
the state is structurally healthy. -/
def HypG (l : List VarId) (s : SState) : Prop :=
  l.Nodup ∧ (∀ v ∈ l, (s.var v).value = none) ∧
  (∀ k ∈ undoKeys s, (s.var k.1).value ≠ none) ∧ Qinv s

/-- Preconditions of an attempt on variable `i` with remaining pool `rest`. -/
def HypV (i : VarId) (rest : List VarId) (s : SState) : Prop :=
  rest.Nodup ∧ (∀ v ∈ rest, (s.var v).value = none) ∧ i ∉ rest ∧
  (∀ k ∈ undoKeys s, (s.var k.1).value ≠ none) ∧
  (∀ x, (i, x) ∉ undoKeys s) ∧ Qinv s

/-- Shape of the pool returned by a `gac` frame: the selected variable moved
to the back, the rest permuted. -/
def PoolShape (l pool : List VarId) : Prop :=
  match l with
  | [] => pool = []
  | v :: rest => ∃ rest', pool = rest' ++ [v] ∧ rest'.Perm rest

/-- Two variables with domains `[1,2]`, one table constraint allowing exactly
the tuples `[1,2]` and `[2,1]` (the not-equal constraint of the spec's
end-to-end enumeration test). -/
def cspNeq : CSP := [.table [0, 1] [[1, 2], [2, 1]]]

/-- Two variables with domains `[1,2]`, one table constraint allowing exactly
the tuple `[1,1]`. -/
def cspPair11 : CSP := [.table [0, 1] [[1, 1]]]

/-- One variable with domain `[1,2]`, one arity-1 table constraint allowing
only the value 1. -/
def cspUnary : CSP := [.table [0] [[1]]]

/-- Variable 0 with domain `[1,2]` constrained to 1 by an arity-1 table
constraint and paired with variable 1 (domain `[5]`) by a second table
constraint allowing only `[1,5]`. -/
def cspDup : CSP := [.table [0] [[1]], .table [0, 1] [[1, 5]]]

/-- The search state reached just before the attempt `(0, 2)` in the search
on `cspDup`: variable 0 is assigned 1 (the previous value of its loop),
current domains are full, the undo dictionary is empty, the first solution
has been recorded. -/
def preAttempt : SState :=
  ⟨[⟨[1, 2], [1, 2], some 1⟩, ⟨[5], [5], none⟩], [],
   [[some 1, some 5]], [(0, [0, 1]), (1, [1])], 0⟩

/-- A one-variable state (domain `[1,2]`, assigned 2, current domain still
full) as it occurs right after `GAC` assigns the value 2, together with the
arity-1 constraint of `cspUnary`: the seed state of claim C7's two runs. -/
def assignedState : SState := ⟨[⟨[1, 2], [1, 2], some 2⟩], [], [], [], 0⟩

/-! ### Basic lemmas about the state operations -/

theorem var_of_length_le (s : SState) (i : VarId) (h : s.vars.length ≤ i) :
    s.var i = defaultVar := by
  unfold SState.var
  rw [List.getD_eq_getElem?_getD, List.getElem?_eq_none (by simpa using h)]
  rfl

theorem var_set_eq (s : SState) (i : VarId) (v : Variable) (h : i < s.vars.length) :
    SState.var { s with vars := s.vars.set i v } i = v := by
  unfold SState.var
  simp [List.getD_eq_getElem?_getD, List.getElem?_set_self h]

theorem var_set_ne (s : SState) (i j : VarId) (v : Variable) (h : i ≠ j) :
    SState.var { s with vars := s.vars.set i v } j = s.var j := by
  unfold SState.var
  simp [List.getD_eq_getElem?_getD, List.getElem?_set_ne h]

theorem var_set_ge (s : SState) (i : VarId) (v : Variable) (h : s.vars.length ≤ i) :
    SState.var { s with vars := s.vars.set i v } i = s.var i := by
  rw [List.set_eq_of_length_le h]

theorem inCurDomain_iff (v : Variable) (x : Val) :
    v.inCurDomain x = true ↔ x ∈ v.curDomain := by
  unfold Variable.inCurDomain Variable.curDomain
  cases v.value with
  | none => simp [List.contains, List.elem_iff]
  | some y => simp [beq_iff_eq]

theorem curDomainSize_eq_zero_iff (v : Variable) :
    v.curDomainSize = 0 ↔ v.curDomain = [] := by
  unfold Variable.curDomainSize Variable.curDomain
  cases v.value with
  | none => simp [List.length_eq_zero]
  | some y => simp

/-! ### Claim C1: `TableConstraint.hasSupport` -/

/-- C1: for a table constraint, `hasSupport(v, x)` is true unconditionally
when `v` is outside the scope, and otherwise exactly when some stored
satisfying tuple assigns `x` at `v`'s scope position and a value in the
current domain of `scope[i]` at every other position `i` (nothing is
required of `x`'s membership in `v`'s own current domain); moreover the
result is invariant under permuting the stored tuples, so it does not depend
on the order in which tuples are examined. -/
theorem claim_C1_table_hasSupport (s : SState) (scope : List VarId)
    (tuples : List (List Val)) (i : VarId) (x : Val) :
    ((Constraint.table scope tuples).hasSupport s i x = true ↔
      (i ∉ scope ∨ ∃ t ∈ tuples, t.getD (scope.indexOf i) 0 = x ∧
        ∀ j, j < scope.length → j ≠ scope.indexOf i →
          t.getD j 0 ∈ (s.var (scope.getD j 0)).curDomain)) ∧
    ∀ tuples', tuples.Perm tuples' →
      (Constraint.table scope tuples').hasSupport s i x =
        (Constraint.table scope tuples).hasSupport s i x := by
  constructor
  · unfold Constraint.hasSupport
    by_cases hmem : i ∈ scope
    · simp only [if_pos hmem, List.any_eq_true, Bool.and_eq_true, beq_iff_eq,
        List.all_eq_true, List.mem_range, Bool.or_eq_true]
      constructor
      · rintro ⟨t, ht, hx, hall⟩
        refine Or.inr ⟨t, ht, hx, fun j hj hne => ?_⟩
        rcases hall j hj with h | h
        · exact absurd h hne
        · exact (inCurDomain_iff _ _).mp h
      · rintro (h | ⟨t, ht, hx, hall⟩)
        · exact absurd hmem h
        · refine ⟨t, ht, hx, fun j hj => ?_⟩
          by_cases hje : j = scope.indexOf i
          · exact Or.inl hje
          · exact Or.inr ((inCurDomain_iff _ _).mpr (hall j hj hje))
    · simp [if_neg hmem, hmem]
  · intro tuples' hperm
    unfold Constraint.hasSupport
    by_cases hmem : i ∈ scope
    · simp only [if_pos hmem]
      rw [Bool.eq_iff_iff]
      simp only [List.any_eq_true]
      constructor
      · rintro ⟨t, ht, hp⟩
        exact ⟨t, hperm.mem_iff.mpr ht, hp⟩
      · rintro ⟨t, ht, hp⟩
        exact ⟨t, hperm.mem_iff.mp ht, hp⟩
    · simp [if_neg hmem]

/-! ### Claim C8: `Variable.pruneValue` on an absent value -/

/-- C8: evaluation of `pruneValue` at the failing input.  Pruning a value
that is present removes it from the current domain and logs the pair under
the reason key (first conjunct).  Pruning the value 2 when the current
domain is `[1]` does NOT fail fatally: the code catches the `list.remove`
exception, prints one error message, leaves the current domain unchanged,
still appends the pair to the undo dictionary, and returns normally (second
conjunct) — contradicting the spec's requirement that `PruneInconsistency`
be a fatal, unrecoverable assertion. -/
theorem claim_C8_pruneValue_swallows :
    pruneValue ⟨[⟨[1, 2], [1, 2], none⟩], [], [], [], 0⟩ 0 2 0 9
      = ⟨[⟨[1, 2], [1], none⟩], [((0, 9), [(0, 2)])], [], [], 0⟩ ∧
    pruneValue ⟨[⟨[1, 2], [1], none⟩], [], [], [], 0⟩ 0 2 0 9
      = ⟨[⟨[1, 2], [1], none⟩], [((0, 9), [(0, 2)])], [], [], 1⟩ := by
  exact ⟨rfl, rfl⟩

/-! ### Claim C9: `Variable.setValue` on an invalid value -/

/-- C9 counterexample: assigning the value 3 to a variable with original
domain `[1,2]` does not fail: `setValue` prints one error message and
returns the state otherwise unchanged (in particular the assignment is
untouched), refuting the claim that the call fails fast with
`InvalidAssignment`. -/
theorem claim_C9_counterexample :
    setValue (initState [[1, 2]]) 0 (some 3)
      = ⟨[⟨[1, 2], [1, 2], none⟩], [], [], [], 1⟩ := by
  rfl

/-- C9 amended: when the given value is neither `None` nor a member of the
original domain, `setValue` reports an error message (modelled by the `errs`
counter) and leaves the state — in particular the assigned value —
unchanged, continuing execution rather than raising; when the value is in
the original domain it is assigned with no error; assigning `None` always
succeeds and clears the assignment. -/
theorem claim_C9_setValue_semantics (s : SState) (i : VarId) (x : Val) :
    (x ∉ (s.var i).dom → setValue s i (some x) = { s with errs := s.errs + 1 }) ∧
    (x ∈ (s.var i).dom → (setValue s i (some x)).errs = s.errs ∧
      (∀ j, j ≠ i → (setValue s i (some x)).var j = s.var j) ∧
      (i < s.vars.length → ((setValue s i (some x)).var i).value = some x)) ∧
    ((setValue s i none).var i).value = none ∧ (setValue s i none).errs = s.errs := by
  refine ⟨fun h => ?_, fun h => ?_, ?_, ?_⟩
  · simp only [setValue]
    rw [if_neg h]
  · simp only [setValue]
    rw [if_pos h]
    refine ⟨rfl, fun j hj => var_set_ne _ _ _ _ (fun he => hj he.symm), fun hlen => ?_⟩
    rw [var_set_eq _ _ _ hlen]
  · simp only [setValue]
    rcases Nat.lt_or_ge i s.vars.length with hlen | hlen
    · rw [var_set_eq _ _ _ hlen]
    · rw [var_set_ge _ _ _ hlen, var_of_length_le _ _ hlen]
      rfl
  · rfl

/-- Closed witness for the C9 theorem: a valid assignment at a concrete
state goes through with no error and sets the value. -/
theorem claim_C9_witness :
    ((setValue (initState [[1, 2]]) 0 (some 2)).var 0).value = some 2 :=
  ((claim_C9_setValue_semantics (initState [[1, 2]]) 0 2).2.1 (by decide)).2.2 (by decide)

/-! ### Claim C4: `GacEnforce` refines the spec's worklist algorithm -/

theorem map_fn_const {α β : Type} (l : List α) (b : β) :
    l.map (fun _ => b) = List.replicate l.length b := by
  induction l with
  | nil => rfl
  | cons a l ih => simp [ih, List.replicate_succ]

theorem enqueueStep_idem (cIdx : Nat) (acc : List Nat) (j : Nat) :
    (fun acc r => if r ≠ cIdx ∧ r ∉ acc then acc ++ [r] else acc)
      ((fun acc r => if r ≠ cIdx ∧ r ∉ acc then acc ++ [r] else acc) acc j) j
      = (fun acc r => if r ≠ cIdx ∧ r ∉ acc then acc ++ [r] else acc) acc j := by
  by_cases h : j ≠ cIdx ∧ j ∉ acc
  · simp only [if_pos h]
    rw [if_neg]
    rintro ⟨-, habs⟩
    exact habs (by simp)
  · simp only [if_neg h, if_neg h]

theorem foldl_enqueueStep_replicate (cIdx : Nat) (n : Nat) (j : Nat) (acc : List Nat) :
    (List.replicate n j).foldl (fun acc r => if r ≠ cIdx ∧ r ∉ acc then acc ++ [r] else acc) acc
      = if n = 0 then acc else (fun acc r => if r ≠ cIdx ∧ r ∉ acc then acc ++ [r] else acc) acc j := by
  induction n generalizing acc with
  | zero => rfl
  | succ m ih =>
    rw [List.replicate_succ, List.foldl_cons, ih]
    by_cases hm : m = 0
    · simp [hm]
    · simp only [hm, if_neg, Nat.succ_ne_zero, if_false]
      exact enqueueStep_idem cIdx acc j

theorem rechecks_aux_eq (i : VarId) (cIdx : Nat) :
    ∀ (cs : List Constraint) (j : Nat) (wl : List Nat),
      (constraintsOfAux cs i j).foldl
        (fun acc r => if r ≠ cIdx ∧ r ∉ acc then acc ++ [r] else acc) wl
      = (specConstraintsReferencing cs i j).foldl
        (fun acc r => if r ≠ cIdx ∧ r ∉ acc then acc ++ [r] else acc) wl := by
  intro cs
  induction cs with
  | nil => intro j wl; rfl
  | cons c rest ih =>
    intro j wl
    simp only [constraintsOfAux, specConstraintsReferencing, List.foldl_append]
    rw [map_fn_const, foldl_enqueueStep_replicate, ih]
    by_cases hmem : i ∈ c.scope
    · have hn : ¬((c.scope.filter fun w => w == i).length = 0) := by
        intro hlen
        rw [List.length_eq_zero, List.filter_eq_nil_iff] at hlen
        exact hlen i hmem (by simp)
      rw [if_neg hn, if_pos hmem]
      rfl
    · have hn : (c.scope.filter fun w => w == i).length = 0 := by
        rw [List.length_eq_zero, List.filter_eq_nil_iff]
        intro a ha hbeq
        exact hmem (by rwa [show a = i from by simpa using hbeq] at ha)
      rw [if_pos hn, if_neg hmem]
      rfl

theorem specRechecks_eq (csp : CSP) (cIdx : Nat) (i : VarId) (wl : List Nat) :
    specRechecks csp cIdx i wl = enqueueRechecks csp cIdx i wl :=
  (rechecks_aux_eq i cIdx csp 0 wl).symm

theorem specEnforceVals_eq (csp : CSP) (cIdx : Nat) (i : VarId) :
    ∀ (vals : List Val) (wl : List Nat) (rv : VarId) (rval : Val) (s : SState),
      specEnforceVals csp cIdx i vals wl rv rval s = enforceVals csp cIdx i vals wl rv rval s := by
  intro vals
  induction vals with
  | nil => intros; rfl
  | cons x rest ih =>
    intro wl rv rval s
    simp only [specEnforceVals, enforceVals]
    by_cases hs : (csp.getD cIdx emptyConstraint).hasSupport s i x = true
    · rw [if_pos hs, if_pos hs, ih]
    · rw [if_neg hs, if_neg hs]
      by_cases hz : ((pruneValue s i x rv rval).var i).curDomain = []
      · rw [if_pos hz, if_pos ((curDomainSize_eq_zero_iff _).mpr hz)]
      · rw [if_neg hz, if_neg (fun h => hz ((curDomainSize_eq_zero_iff _).mp h)), ih,
          specRechecks_eq]

theorem specEnforceScope_eq (csp : CSP) (cIdx : Nat) :
    ∀ (scope : List VarId) (wl : List Nat) (rv : VarId) (rval : Val) (s : SState),
      specEnforceScope csp cIdx scope wl rv rval s = enforceScope csp cIdx scope wl rv rval s := by
  intro scope
  induction scope with
  | nil => intros; rfl
  | cons i rest ih =>
    intro wl rv rval s
    simp only [specEnforceScope, enforceScope, specEnforceVals_eq]
    rcases enforceVals csp cIdx i ((s.var i).curDomain) wl rv rval s with ⟨s₁, wl₁, wiped⟩
    cases wiped
    · simp only [ih]
    · rfl

/-- C4: `GacEnforce` implements exactly the propagation pass the spec
describes.  The first conjunct is the refinement: the code (whose wipeout
test is `curDomainSize() == 0` and whose re-enqueue walks the precomputed
`constraintsOf` bucket, one entry per scope occurrence) computes the same
function as the literal transcription of the spec's words (wipeout exactly
when a pruned variable's current domain becomes empty; enqueue every
constraint referencing the pruned variable other than the popped one that is
not already in the worklist).  The second conjunct is the drain clause:
with an empty worklist the enforcer returns success with the state
untouched. -/
theorem claim_C4_gacEnforce_as_specified :
    (∀ (fuel : Nat) (csp : CSP) (wl : List Nat) (rv : VarId) (rval : Val) (s : SState),
      gacEnforce fuel csp wl rv rval s = gacEnforceSpec fuel csp wl rv rval s) ∧
    ∀ (fuel : Nat) (csp : CSP) (rv : VarId) (rval : Val) (s : SState),
      gacEnforce (fuel + 1) csp [] rv rval s = some (false, s) := by
  constructor
  · intro fuel
    induction fuel with
    | zero => intros; rfl
    | succ m ih =>
      intro csp wl rv rval s
      cases wl with
      | nil => rfl
      | cons cIdx rest =>
        simp only [gacEnforce, gacEnforceSpec]
        rw [specEnforceScope_eq]
        rcases enforceScope csp cIdx (csp.getD cIdx emptyConstraint).scope rest rv rval s with
          ⟨s₁, wl₁, wiped⟩
        cases wiped
        · simp only [ih]
        · rfl
  · intros; rfl

/-! ### Claim C6: `NValuesConstraint.hasSupport` -/

theorem valsOK_of_append (arity : Nat) (required : List Val) (lb ub : Int)
    (l e : List (VarId × Val)) (h : valsOK arity required lb ub (l ++ e) = true) :
    valsOK arity required lb ub l = true := by
  unfold valsOK at *
  simp only [Bool.and_eq_true, decide_eq_true_eq, List.countP_append, List.length_append] at *
  have he := List.countP_le_length (fun p => decide (p.2 ∈ required)) (l := e)
  constructor
  · have := h.1
    push_cast at *
    omega
  · have := h.2
    push_cast at *
    omega

theorem valsOK_perm_congr (arity : Nat) (required : List Val) (lb ub : Int)
    {l l' : List (VarId × Val)} (h : l.Perm l') :
    valsOK arity required lb ub l = valsOK arity required lb ub l' := by
  unfold valsOK
  rw [h.countP_eq, h.length_eq]

theorem map_fst_perm_transport :
    ∀ {rem rem' : List VarId}, rem.Perm rem' →
      ∀ ps : List (VarId × Val), ps.map Prod.fst = rem →
        ∃ ps' : List (VarId × Val), ps'.Perm ps ∧ ps'.map Prod.fst = rem' := by
  intro rem rem' h
  induction h with
  | nil =>
    intro ps hps
    rw [List.map_eq_nil] at hps
    exact ⟨[], by simp [hps], rfl⟩
  | cons a h ih =>
    intro ps hps
    cases ps with
    | nil => simp at hps
    | cons p tail =>
      simp only [List.map_cons, List.cons.injEq] at hps
      obtain ⟨tail', htp, htm⟩ := ih tail hps.2
      exact ⟨p :: tail', htp.cons p, by simp [htm, hps.1]⟩
  | swap a b l =>
    intro ps hps
    cases ps with
    | nil => simp at hps
    | cons p₁ rest =>
      cases rest with
      | nil => simp at hps
      | cons p₂ tail =>
        simp only [List.map_cons, List.cons.injEq] at hps
        exact ⟨p₂ :: p₁ :: tail, List.Perm.swap p₁ p₂ tail,
          by simp [hps.1, hps.2.1, hps.2.2]⟩
  | trans h₁ h₂ ih₁ ih₂ =>
    intro ps hps
    obtain ⟨ps₁, hp₁, hm₁⟩ := ih₁ ps hps
    obtain ⟨ps₂, hp₂, hm₂⟩ := ih₂ ps₁ hm₁
    exact ⟨ps₂, hp₂.trans hp₁, hm₂⟩

theorem findvalsR_iff (s : SState) (arity : Nat) (required : List Val) (lb ub : Int) :
    ∀ (rem : List VarId) (acc : List (VarId × Val)),
      findvalsR s arity required lb ub rem acc = true ↔
        ∃ ps : List (VarId × Val), ps.map Prod.fst = rem ∧
          (∀ p ∈ ps, p.2 ∈ (s.var p.1).curDomain) ∧
          valsOK arity required lb ub (acc ++ ps) = true := by
  intro rem
  induction rem with
  | nil =>
    intro acc
    simp only [findvalsR]
    constructor
    · intro h
      exact ⟨[], rfl, by simp, by simpa using h⟩
    · rintro ⟨ps, hmap, -, hok⟩
      rw [List.map_eq_nil] at hmap
      simpa [hmap] using hok
  | cons w ws ih =>
    intro acc
    simp only [findvalsR, List.any_eq_true, Bool.and_eq_true]
    constructor
    · rintro ⟨x, hx, hok, hrec⟩
      obtain ⟨ps', hmap, hmem, hok'⟩ := (ih (acc ++ [(w, x)])).mp hrec
      refine ⟨(w, x) :: ps', by simp [hmap], ?_, ?_⟩
      · intro p hp
        rcases List.mem_cons.mp hp with hp | hp
        · subst hp; exact hx
        · exact hmem p hp
      · rwa [List.append_assoc] at hok'
    · rintro ⟨ps, hmap, hmem, hok⟩
      cases ps with
      | nil => simp at hmap
      | cons p tail =>
        obtain ⟨p₁, p₂⟩ := p
        simp only [List.map_cons, List.cons.injEq] at hmap
        obtain ⟨hw, htail⟩ := hmap
        subst hw
        have hok' : valsOK arity required lb ub ((acc ++ [(p₁, p₂)]) ++ tail) = true := by
          rwa [List.append_assoc]
        refine ⟨p₂, hmem (p₁, p₂) (List.mem_cons_self _ _), ?_, ?_⟩
        · exact valsOK_of_append arity required lb ub _ tail hok'
        · exact (ih (acc ++ [(p₁, p₂)])).mpr
            ⟨tail, htail, fun p hp => hmem p (List.mem_cons_of_mem _ hp), hok'⟩

theorem valsOK_full (arity : Nat) (required : List Val) (lb ub : Int)
    (l : List (VarId × Val)) (h : l.length = arity) :
    valsOK arity required lb ub l = true ↔
      lb ≤ ((l.countP fun p => decide (p.2 ∈ required) : Nat) : Int) ∧
        ((l.countP fun p => decide (p.2 ∈ required) : Nat) : Int) ≤ ub := by
  unfold valsOK
  simp only [Bool.and_eq_true, decide_eq_true_eq]
  rw [h, add_sub_cancel_right]

/-- C6: for an NValues constraint, `hasSupport(v, x)` is true unconditionally
when `v` is outside the scope, and otherwise exactly when the remaining
scope variables (`scope` with the first occurrence of `v` removed) can each
be given some value from their current domains so that the total number of
assigned values lying in `requiredValues` — counting `x` for `v` itself —
falls in `[lowerBound, upperBound]`.  Since this characterisation mentions
neither the order in which `findvals` processes the remaining variables
(smallest current domain first in the source) nor its partial-assignment
pruning test, both are proved never to change the returned truth value. -/
theorem claim_C6_nvalues_hasSupport (s : SState) (scope : List VarId) (required : List Val)
    (lb ub : Int) (i : VarId) (x : Val) :
    (Constraint.nvalues scope required lb ub).hasSupport s i x = true ↔
      (i ∉ scope ∨ ∃ ps : List (VarId × Val),
        ps.map Prod.fst = scope.erase i ∧
        (∀ p ∈ ps, p.2 ∈ (s.var p.1).curDomain) ∧
        lb ≤ ((((i, x) :: ps).countP fun p => decide (p.2 ∈ required) : Nat) : Int) ∧
        ((((i, x) :: ps).countP fun p => decide (p.2 ∈ required) : Nat) : Int) ≤ ub) := by
  have hlen1 : ∀ ps : List (VarId × Val), ps.map Prod.fst = scope.erase i → i ∈ scope →
      ((i, x) :: ps).length = scope.length := by
    intro ps hmap hmem
    have h₁ : ps.length = (scope.erase i).length := by
      rw [← hmap, List.length_map]
    have h₂ : (scope.erase i).length = scope.length - 1 := List.length_erase_of_mem hmem
    have h₃ : 0 < scope.length := List.length_pos.mpr (List.ne_nil_of_mem hmem)
    simp only [List.length_cons]
    omega
  simp only [Constraint.hasSupport]
  by_cases hmem : i ∈ scope
  · rw [if_pos hmem, findvalsR_iff]
    simp only [List.singleton_append]
    have hperm : (((scope.erase i).mergeSort fun a b =>
        decide ((s.var a).curDomainSize ≤ (s.var b).curDomainSize))).Perm (scope.erase i) :=
      List.mergeSort_perm _ _
    constructor
    · rintro ⟨ps, hmap, hm, hok⟩
      obtain ⟨ps', hp', hm'⟩ := map_fst_perm_transport hperm ps hmap
      have hok' : valsOK scope.length required lb ub ((i, x) :: ps') = true := by
        rw [valsOK_perm_congr scope.length required lb ub (List.Perm.cons (i, x) hp')]
        exact hok
      refine Or.inr ⟨ps', hm', fun p hp => hm p (hp'.mem_iff.mp hp), ?_⟩
      exact (valsOK_full _ _ _ _ _ (hlen1 ps' hm' hmem)).mp hok'
    · rintro (h | ⟨ps, hmap, hm, hlb, hub⟩)
      · exact absurd hmem h
      · obtain ⟨ps', hp', hm'⟩ := map_fst_perm_transport hperm.symm ps hmap
        refine ⟨ps', hm', fun p hp => hm p (hp'.mem_iff.mp hp), ?_⟩
        rw [valsOK_perm_congr scope.length required lb ub (List.Perm.cons (i, x) hp')]
        exact (valsOK_full _ _ _ _ _ (hlen1 ps hmap hmem)).mpr ⟨hlb, hub⟩
  · rw [if_neg hmem]
    simp [hmem]

/-! ### Claim C7: propagation on an already-consistent worklist -/

theorem enforceVals_noop (csp : CSP) (cIdx : Nat) (i : VarId) (rv : VarId) (rval : Val) :
    ∀ (vals : List Val) (wl : List Nat) (s : SState),
      (∀ x ∈ vals, (csp.getD cIdx emptyConstraint).hasSupport s i x = true) →
      enforceVals csp cIdx i vals wl rv rval s = (s, wl, false) := by
  intro vals
  induction vals with
  | nil => intros; rfl
  | cons x rest ih =>
    intro wl s h
    simp only [enforceVals]
    rw [if_pos (h x (List.mem_cons_self _ _))]
    exact ih wl s fun y hy => h y (List.mem_cons_of_mem _ hy)

theorem enforceScope_noop (csp : CSP) (cIdx : Nat) (rv : VarId) (rval : Val) :
    ∀ (scope : List VarId) (wl : List Nat) (s : SState),
      (∀ i ∈ scope, ∀ x ∈ (s.var i).curDomain,
        (csp.getD cIdx emptyConstraint).hasSupport s i x = true) →
      enforceScope csp cIdx scope wl rv rval s = (s, wl, false) := by
  intro scope
  induction scope with
  | nil => intros; rfl
  | cons i rest ih =>
    intro wl s h
    simp only [enforceScope]
    rw [enforceVals_noop csp cIdx i rv rval _ wl s
      (fun x hx => h i (List.mem_cons_self _ _) x hx)]
    exact ih wl s fun j hj x hx => h j (List.mem_cons_of_mem _ hj) x hx

/-- C7 amended: if `GacEnforce` is invoked on a state in which every
constraint of the seed worklist already has support for every value in each
of its scope variables' current domains (the intended meaning of "already
arc-consistent"), then — with enough fuel for the worklist to drain — it
prunes nothing, leaves the entire state (domains, undo dictionary, error
count) bit-for-bit unchanged, and returns success.  The counterexample shows
that a successful first run does not by itself produce such a state when an
assigned variable's value is unsupported. -/
theorem claim_C7_enforce_noop_on_consistent :
    ∀ (fuel : Nat) (csp : CSP) (wl : List Nat) (rv : VarId) (rval : Val) (s : SState),
      wl.length < fuel →
      (∀ cIdx ∈ wl, ∀ i ∈ (csp.getD cIdx emptyConstraint).scope,
        ∀ x ∈ (s.var i).curDomain,
          (csp.getD cIdx emptyConstraint).hasSupport s i x = true) →
      gacEnforce fuel csp wl rv rval s = some (false, s) := by
  intro fuel
  induction fuel with
  | zero => intro csp wl rv rval s h; omega
  | succ m ih =>
    intro csp wl rv rval s hlen h
    cases wl with
    | nil => rfl
    | cons cIdx rest =>
      simp only [gacEnforce]
      rw [enforceScope_noop csp cIdx rv rval _ rest s
        (fun i hi x hx => h cIdx (List.mem_cons_self _ _) i hi x hx)]
      exact ih csp rest rv rval s (by simpa using Nat.lt_of_succ_lt_succ hlen)
        fun c hc => h c (List.mem_cons_of_mem _ hc)

/-- Closed witness for the C7 theorem: the two-variable not-equal CSP in its
initial state is arc-consistent, and `GacEnforce` on the seed worklist
returns success with the state untouched. -/
theorem claim_C7_witness :
    gacEnforce 2 cspNeq [0] 0 1 (initState [[1, 2], [1, 2]])
      = some (false, initState [[1, 2], [1, 2]]) :=
  claim_C7_enforce_noop_on_consistent 2 cspNeq [0] 0 1 (initState [[1, 2], [1, 2]])
    (by decide) (by decide)

/-- C7 counterexample: the claim asserts that after `GacEnforce` runs to a
successful fixpoint, running it again with the same seed worklist prunes no
value.  Start from the state in which `GAC` has just assigned 2 to the
variable of `cspUnary` (domain `[1,2]`, arity-1 constraint allowing only 1).
The first run succeeds after pruning 2 (no wipeout is reported because
`curDomainSize()` is 1 for an assigned variable).  The second run on the
resulting state with the same seed worklist again finds the assigned value 2
unsupported and prunes it again: the `list.remove` fails (one error message
is printed) and the pair `(0, 2)` is nonetheless appended to the undo
dictionary a second time, so the second run performs a prune and is not a
no-op — only the current-domain list itself is unchanged. -/
theorem claim_C7_counterexample :
    gacEnforce 10 cspUnary [0] 0 2 assignedState
      = some (false, ⟨[⟨[1, 2], [1], some 2⟩], [((0, 2), [(0, 2)])], [], [], 0⟩) ∧
    gacEnforce 10 cspUnary [0] 0 2 ⟨[⟨[1, 2], [1], some 2⟩], [((0, 2), [(0, 2)])], [], [], 0⟩
      = some (false, ⟨[⟨[1, 2], [1], some 2⟩], [((0, 2), [(0, 2), (0, 2)])], [], [], 1⟩) := by
  exact ⟨rfl, rfl⟩

/-! ### Lemmas about the undo dictionary -/

theorem undoLookup_eq_none_iff (u : List ((VarId × Val) × List (VarId × Val)))
    (k : VarId × Val) : undoLookup u k = none ↔ ∀ kv ∈ u, kv.1 ≠ k := by
  induction u with
  | nil => simp [undoLookup]
  | cons hd tl ih =>
    obtain ⟨k', e⟩ := hd
    simp only [undoLookup]
    by_cases hk : k' = k
    · simp [hk]
    · simp only [if_neg hk, ih]
      constructor
      · intro h kv hkv
        rcases List.mem_cons.mp hkv with h' | h'
        · subst h'; exact hk
        · exact h kv h'
      · intro h kv hkv
        exact h kv (List.mem_cons_of_mem _ hkv)

theorem undoAdd_found (k : VarId × Val) (e : List (VarId × Val)) (p : VarId × Val) :
    ∀ u, undoLookup u k = none →
      undoAdd (u ++ [(k, e)]) k p = u ++ [(k, e ++ [p])] := by
  intro u
  induction u with
  | nil => simp [undoAdd]
  | cons hd tl ih =>
    obtain ⟨k', e'⟩ := hd
    intro h
    have hk : k' ≠ k := ((undoLookup_eq_none_iff _ _).mp h) (k', e') (List.mem_cons_self _ _)
    have htl : undoLookup tl k = none := by
      rw [undoLookup_eq_none_iff]
      exact fun kv hkv => ((undoLookup_eq_none_iff _ _).mp h) kv (List.mem_cons_of_mem _ hkv)
    simp only [List.cons_append, undoAdd, if_neg hk]
    exact congrArg (List.cons (k', e')) (ih htl)

theorem undoAddAll_acc (k : VarId × Val) :
    ∀ (ps : List (VarId × Val)) (u : List ((VarId × Val) × List (VarId × Val)))
      (e : List (VarId × Val)), undoLookup u k = none →
      undoAddAll (u ++ [(k, e)]) k ps = u ++ [(k, e ++ ps)] := by
  intro ps
  induction ps with
  | nil => intro u e h; simp [undoAddAll]
  | cons p rest ih =>
    intro u e h
    show undoAddAll (undoAdd (u ++ [(k, e)]) k p) k rest = _
    rw [undoAdd_found k e p u h, ih u (e ++ [p]) h, List.append_assoc]
    rfl

theorem undoAddAll_fresh (k : VarId × Val) (ps : List (VarId × Val))
    (u : List ((VarId × Val) × List (VarId × Val))) (h : undoLookup u k = none)
    (hne : ps ≠ []) : undoAddAll u k ps = u ++ [(k, ps)] := by
  cases ps with
  | nil => exact absurd rfl hne
  | cons p rest =>
    show undoAddAll (undoAdd u k p) k rest = _
    have : undoAdd u k p = u ++ [(k, [p])] := by
      induction u with
      | nil => rfl
      | cons hd tl ih =>
        obtain ⟨k', e'⟩ := hd
        have hk : k' ≠ k := ((undoLookup_eq_none_iff _ _).mp h) (k', e') (List.mem_cons_self _ _)
        have htl : undoLookup tl k = none := by
          rw [undoLookup_eq_none_iff]
          exact fun kv hkv => ((undoLookup_eq_none_iff _ _).mp h) kv (List.mem_cons_of_mem _ hkv)
        simp only [undoAdd, if_neg hk, List.cons_append]
        exact congrArg (List.cons (k', e')) (ih htl)
    rw [this, undoAddAll_acc k rest u [p] h]
    rfl

theorem undoLookup_append_self (u : List ((VarId × Val) × List (VarId × Val)))
    (k : VarId × Val) (e : List (VarId × Val)) (h : undoLookup u k = none) :
    undoLookup (u ++ [(k, e)]) k = some e := by
  induction u with
  | nil => simp [undoLookup]
  | cons hd tl ih =>
    obtain ⟨k', e'⟩ := hd
    have hk : k' ≠ k := ((undoLookup_eq_none_iff _ _).mp h) (k', e') (List.mem_cons_self _ _)
    have htl : undoLookup tl k = none := by
      rw [undoLookup_eq_none_iff]
      exact fun kv hkv => ((undoLookup_eq_none_iff _ _).mp h) kv (List.mem_cons_of_mem _ hkv)
    simp only [List.cons_append, undoLookup, if_neg hk]
    exact ih htl

theorem undoDel_append_self (u : List ((VarId × Val) × List (VarId × Val)))
    (k : VarId × Val) (e : List (VarId × Val)) (h : undoLookup u k = none) :
    undoDel (u ++ [(k, e)]) k = u := by
  unfold undoDel
  rw [List.filter_append]
  have h₁ : u.filter (fun kv => decide (kv.1 ≠ k)) = u := by
    rw [List.filter_eq_self]
    intro kv hkv
    simpa using ((undoLookup_eq_none_iff _ _).mp h) kv hkv
  have h₂ : [(k, e)].filter (fun kv => decide (kv.1 ≠ k)) = [] := by simp
  rw [h₁, h₂, List.append_nil]

/-! ### Structural lemmas: `Qinv`, variable access, the pruning step -/

theorem getD_set_var (l : List Variable) (i j : Nat) (v : Variable) :
    (l.set i v).getD j defaultVar = if i = j ∧ i < l.length then v else l.getD j defaultVar := by
  by_cases hij : i = j
  · subst hij
    by_cases hlen : i < l.length
    · simp [List.getD_eq_getElem?_getD, List.getElem?_set_self hlen, hlen]
    · rw [List.set_eq_of_length_le (Nat.le_of_not_lt hlen), if_neg (by tauto)]
  · rw [List.getD_eq_getElem?_getD, List.getElem?_set_ne hij, if_neg (by tauto),
      List.getD_eq_getElem?_getD]

theorem Qinv_var (s : SState) (hq : Qinv s) (i : VarId) :
    (∀ x ∈ (s.var i).curdom, x ∈ (s.var i).dom) ∧
    ∀ y, (s.var i).value = some y → y ∈ (s.var i).dom := by
  rcases Nat.lt_or_ge i s.vars.length with h | h
  · have hm : s.var i ∈ s.vars := by
      unfold SState.var
      rw [List.getD_eq_getElem _ _ h]
      exact List.getElem_mem h
    exact hq _ hm
  · rw [var_of_length_le s i h]
    exact ⟨fun x hx => by simp [defaultVar] at hx, fun y hy => by simp [defaultVar] at hy⟩

theorem curDomain_subset_dom (s : SState) (hq : Qinv s) (i : VarId) :
    ∀ x ∈ (s.var i).curDomain, x ∈ (s.var i).dom := by
  intro x hx
  unfold Variable.curDomain at hx
  rcases hv : (s.var i).value with _ | y
  · rw [hv] at hx
    exact (Qinv_var s hq i).1 x hx
  · rw [hv] at hx
    simp only [List.mem_singleton] at hx
    subst hx
    exact (Qinv_var s hq i).2 x hv

theorem lt_length_of_mem_dom (s : SState) {i : VarId} {x : Val}
    (h : x ∈ (s.var i).dom) : i < s.vars.length := by
  by_contra hge
  rw [var_of_length_le s i (Nat.le_of_not_lt hge)] at h
  simp [defaultVar] at h

theorem Qinv_set (s : SState) (i : VarId) (v : Variable) (hq : Qinv s)
    (hv : (∀ x ∈ v.curdom, x ∈ v.dom) ∧ ∀ y, v.value = some y → y ∈ v.dom) :
    Qinv { s with vars := s.vars.set i v } := by
  intro w hw
  rcases List.mem_or_eq_of_mem_set hw with h | h
  · exact hq w h
  · subst h
    exact hv

theorem pruneValue_var (s : SState) (i : VarId) (x : Val) (rv : VarId) (rval : Val)
    (j : VarId) :
    (pruneValue s i x rv rval).var j =
      if i = j ∧ i < s.vars.length then { s.var i with curdom := (s.var i).curdom.erase x }
      else s.var j := by
  simp only [pruneValue, SState.var]
  exact getD_set_var s.vars i j _

theorem pruneValue_enfRel (s : SState) (i : VarId) (x : Val) (rv : VarId) (rval : Val)
    (hq : Qinv s) (hx : x ∈ (s.var i).dom) :
    EnfRel (rv, rval) [(i, x)] s (pruneValue s i x rv rval) := by
  have hlen := lt_length_of_mem_dom s hx
  have hvar := pruneValue_var s i x rv rval
  have herrs : (pruneValue s i x rv rval).errs
      = if x ∈ (s.var i).curdom then s.errs else s.errs + 1 := rfl
  refine ⟨?_, ?_, rfl, ?_, ?_, ?_, rfl, rfl, ?_, ?_⟩
  · intro j
    rw [hvar j]
    split
    · rename_i h
      rw [← h.1]
    · rfl
  · intro j
    rw [hvar j]
    split
    · rename_i h
      rw [← h.1]
    · rfl
  · rw [herrs]
    split
    · exact Nat.le_refl _
    · exact Nat.le_succ _
  · intro j y
    by_cases hij : i = j
    · subst hij
      have hcnt : cnt (pruneValue s i x rv rval) i y
          = List.count y ((s.var i).curdom.erase x) := by
        unfold cnt
        rw [hvar i, if_pos ⟨rfl, hlen⟩]
      have hc1 : List.count (i, y) [(i, x)] = if x = y then 1 else 0 := by
        simp only [List.count_cons, List.count_nil, Nat.zero_add]
        by_cases hxy : x = y
        · subst hxy
          simp
        · rw [if_neg hxy, if_neg]
          simp only [beq_iff_eq, Prod.mk.injEq]
          tauto
      rw [hcnt, hc1, herrs]
      unfold cnt
      rw [List.count_erase]
      by_cases hxy : x = y
      · subst hxy
        rw [if_pos rfl]
        simp only [beq_self_eq_true, if_true]
        by_cases hmem : x ∈ (s.var i).curdom
        · have hpos : 0 < List.count x (s.var i).curdom := List.count_pos_iff.mpr hmem
          rw [if_pos hmem]
          omega
        · have hzero : List.count x (s.var i).curdom = 0 := List.count_eq_zero.mpr hmem
          rw [if_neg hmem]
          omega
      · have hbeq : ¬((x == y) = true) := by simpa using hxy
        rw [if_neg hxy, if_neg hbeq]
        split <;> omega
    · have hcnt : cnt (pruneValue s i x rv rval) j y = cnt s j y := by
        unfold cnt
        rw [hvar j, if_neg (by tauto)]
      have hc1 : List.count (j, y) [(i, x)] = 0 := by
        simp only [List.count_cons, List.count_nil, Nat.zero_add]
        rw [if_neg]
        simp only [beq_iff_eq, Prod.mk.injEq]
        tauto
      rw [hcnt, hc1, herrs]
      split <;> omega
  · intro p hp
    rw [List.mem_singleton] at hp
    subst hp
    exact hx
  · simp [pruneValue, List.length_set]
  · have hnew : (∀ y ∈ ((s.var i).curdom.erase x), y ∈ (s.var i).dom) ∧
        ∀ y, (s.var i).value = some y → y ∈ (s.var i).dom :=
      ⟨fun y hy => (Qinv_var s hq i).1 y (List.mem_of_mem_erase hy),
       (Qinv_var s hq i).2⟩
    exact Qinv_set s i _ hq hnew

theorem EnfRel_refl (k : VarId × Val) (s : SState) (hq : Qinv s) : EnfRel k [] s s := by
  refine ⟨fun j => rfl, fun j => rfl, rfl, Nat.le_refl _, ?_, by simp, rfl, rfl, rfl, hq⟩
  intro j x
  simp

theorem EnfRel_trans (k : VarId × Val) {E₁ E₂ : List (VarId × Val)} {s s₁ s₂ : SState}
    (h₁ : EnfRel k E₁ s s₁) (h₂ : EnfRel k E₂ s₁ s₂) : EnfRel k (E₁ ++ E₂) s s₂ := by
  obtain ⟨hv₁, hd₁, hu₁, he₁, hc₁, hval₁, hs₁, ht₁, hl₁, hq₁⟩ := h₁
  obtain ⟨hv₂, hd₂, hu₂, he₂, hc₂, hval₂, hs₂, ht₂, hl₂, hq₂⟩ := h₂
  refine ⟨fun j => (hv₂ j).trans (hv₁ j), fun j => (hd₂ j).trans (hd₁ j), ?_,
    he₁.trans he₂, ?_, ?_, hs₂.trans hs₁, ht₂.trans ht₁, hl₂.trans hl₁, hq₂⟩
  · rw [hu₂, hu₁]
    unfold undoAddAll
    rw [List.foldl_append]
  · intro j x
    have c₁ := hc₁ j x
    have c₂ := hc₂ j x
    rw [List.count_append]
    omega
  · intro p hp
    rcases List.mem_append.mp hp with h | h
    · exact hval₁ p h
    · rw [← hd₁ p.1]
      exact hval₂ p h

theorem enforceVals_enfRel (csp : CSP) (cIdx : Nat) (i : VarId) (rv : VarId) (rval : Val) :
    ∀ (vals : List Val) (wl : List Nat) (s s' : SState) (wl' : List Nat) (w : Bool),
      Qinv s → (∀ x ∈ vals, x ∈ (s.var i).dom) →
      enforceVals csp cIdx i vals wl rv rval s = (s', wl', w) →
      ∃ E, EnfRel (rv, rval) E s s' := by
  intro vals
  induction vals with
  | nil =>
    rintro wl s s' wl' w hq hvals heq
    simp only [enforceVals, Prod.mk.injEq] at heq
    obtain ⟨h1, -, -⟩ := heq
    subst h1
    exact ⟨[], EnfRel_refl _ s hq⟩
  | cons x rest ih =>
    rintro wl s s' wl' w hq hvals heq
    simp only [enforceVals] at heq
    by_cases hs : (csp.getD cIdx emptyConstraint).hasSupport s i x = true
    · rw [if_pos hs] at heq
      exact ih wl s s' wl' w hq (fun y hy => hvals y (List.mem_cons_of_mem _ hy)) heq
    · rw [if_neg hs] at heq
      have hstep := pruneValue_enfRel s i x rv rval hq (hvals x (List.mem_cons_self _ _))
      obtain ⟨hval, hdom, hundo, herr, hcnt, hvalid, hsols, htrace, hlen, hqr⟩ := hstep
      by_cases hz : ((pruneValue s i x rv rval).var i).curDomainSize = 0
      · rw [if_pos hz] at heq
        simp only [Prod.mk.injEq] at heq
        obtain ⟨h1, -, -⟩ := heq
        subst h1
        exact ⟨[(i, x)], hval, hdom, hundo, herr, hcnt, hvalid, hsols, htrace, hlen, hqr⟩
      · rw [if_neg hz] at heq
        obtain ⟨E', hE'⟩ := ih (enqueueRechecks csp cIdx i wl) (pruneValue s i x rv rval)
          s' wl' w hqr (fun y hy => by
            rw [hdom i]
            exact hvals y (List.mem_cons_of_mem _ hy)) heq
        exact ⟨(i, x) :: E', EnfRel_trans _
          ⟨hval, hdom, hundo, herr, hcnt, hvalid, hsols, htrace, hlen, hqr⟩ hE'⟩

theorem enforceScope_enfRel (csp : CSP) (cIdx : Nat) (rv : VarId) (rval : Val) :
    ∀ (scope : List VarId) (wl : List Nat) (s s' : SState) (wl' : List Nat) (w : Bool),
      Qinv s →
      enforceScope csp cIdx scope wl rv rval s = (s', wl', w) →
      ∃ E, EnfRel (rv, rval) E s s' := by
  intro scope
  induction scope with
  | nil =>
    rintro wl s s' wl' w hq heq
    simp only [enforceScope, Prod.mk.injEq] at heq
    obtain ⟨h1, -, -⟩ := heq
    subst h1
    exact ⟨[], EnfRel_refl _ s hq⟩
  | cons i rest ih =>
    rintro wl s s' wl' w hq heq
    simp only [enforceScope] at heq
    rcases hev : enforceVals csp cIdx i ((s.var i).curDomain) wl rv rval s with ⟨s₁, wl₁, w₁⟩
    rw [hev] at heq
    obtain ⟨E₁, hE₁⟩ := enforceVals_enfRel csp cIdx i rv rval _ wl s s₁ wl₁ w₁ hq
      (curDomain_subset_dom s hq i) hev
    cases w₁ with
    | true =>
      simp only [Prod.mk.injEq] at heq
      obtain ⟨h1, -, -⟩ := heq
      subst h1
      exact ⟨E₁, hE₁⟩
    | false =>
      obtain ⟨E₂, hE₂⟩ := ih wl₁ s₁ s' wl' w hE₁.2.2.2.2.2.2.2.2.2 heq
      exact ⟨E₁ ++ E₂, EnfRel_trans _ hE₁ hE₂⟩

theorem gacEnforce_enfRel :
    ∀ (fuel : Nat) (csp : CSP) (wl : List Nat) (rv : VarId) (rval : Val) (s : SState)
      (w : Bool) (s' : SState),
      Qinv s → gacEnforce fuel csp wl rv rval s = some (w, s') →
      ∃ E, EnfRel (rv, rval) E s s' := by
  intro fuel
  induction fuel with
  | zero =>
    rintro csp wl rv rval s w s' hq heq
    cases heq
  | succ m ih =>
    rintro csp wl rv rval s w s' hq heq
    cases wl with
    | nil =>
      simp only [gacEnforce, Option.some.injEq, Prod.mk.injEq] at heq
      obtain ⟨-, h2⟩ := heq
      subst h2
      exact ⟨[], EnfRel_refl _ s hq⟩
    | cons cIdx rest =>
      simp only [gacEnforce] at heq
      rcases hsc : enforceScope csp cIdx (csp.getD cIdx emptyConstraint).scope rest rv rval s
        with ⟨s₁, wl₁, w₁⟩
      rw [hsc] at heq
      obtain ⟨E₁, hE₁⟩ := enforceScope_enfRel csp cIdx rv rval _ rest s s₁ wl₁ w₁ hq hsc
      cases w₁ with
      | true =>
        simp only [Option.some.injEq, Prod.mk.injEq] at heq
        obtain ⟨-, h2⟩ := heq
        subst h2
        exact ⟨E₁, hE₁⟩
      | false =>
        obtain ⟨E₂, hE₂⟩ := ih csp wl₁ rv rval s₁ w s' hE₁.2.2.2.2.2.2.2.2.2 heq
        exact ⟨E₁ ++ E₂, EnfRel_trans _ hE₁ hE₂⟩

/-! ### Lemmas about restoration and assignment steps -/

theorem restoreVal_var (s : SState) (i : VarId) (x : Val) (j : VarId) :
    (restoreVal s i x).var j =
      if i = j ∧ i < s.vars.length then { s.var i with curdom := (s.var i).curdom ++ [x] }
      else s.var j := by
  simp only [restoreVal, SState.var]
  exact getD_set_var s.vars i j _

theorem restoreList_fields :
    ∀ (ps : List (VarId × Val)) (s : SState),
      (restoreList s ps).undo = s.undo ∧ (restoreList s ps).sols = s.sols ∧
      (restoreList s ps).trace = s.trace ∧ (restoreList s ps).errs = s.errs ∧
      (restoreList s ps).vars.length = s.vars.length := by
  intro ps
  induction ps with
  | nil => intro s; exact ⟨rfl, rfl, rfl, rfl, rfl⟩
  | cons p rest ih =>
    intro s
    have h := ih (restoreVal s p.1 p.2)
    refine ⟨h.1, h.2.1, h.2.2.1, h.2.2.2.1, h.2.2.2.2.trans ?_⟩
    simp [restoreVal, List.length_set]

theorem restoreList_value :
    ∀ (ps : List (VarId × Val)) (s : SState) (j : VarId),
      ((restoreList s ps).var j).value = (s.var j).value := by
  intro ps
  induction ps with
  | nil => intro s j; rfl
  | cons p rest ih =>
    intro s j
    refine (ih (restoreVal s p.1 p.2) j).trans ?_
    rw [restoreVal_var]
    split
    · rename_i h
      rw [← h.1]
    · rfl

theorem restoreList_dom :
    ∀ (ps : List (VarId × Val)) (s : SState) (j : VarId),
      ((restoreList s ps).var j).dom = (s.var j).dom := by
  intro ps
  induction ps with
  | nil => intro s j; rfl
  | cons p rest ih =>
    intro s j
    refine (ih (restoreVal s p.1 p.2) j).trans ?_
    rw [restoreVal_var]
    split
    · rename_i h
      rw [← h.1]
    · rfl

theorem restoreList_cnt :
    ∀ (ps : List (VarId × Val)) (s : SState), (∀ p ∈ ps, p.1 < s.vars.length) →
      ∀ (j : VarId) (y : Val), cnt (restoreList s ps) j y = cnt s j y + ps.count (j, y) := by
  intro ps
  induction ps with
  | nil => intro s _ j y; simp [restoreList]
  | cons p rest ih =>
    obtain ⟨pi, px⟩ := p
    intro s hps j y
    have hlen : pi < s.vars.length := hps (pi, px) (List.mem_cons_self _ _)
    have hstep : cnt (restoreVal s pi px) j y
        = cnt s j y + (if pi = j ∧ px = y then 1 else 0) := by
      unfold cnt
      rw [restoreVal_var]
      by_cases hij : pi = j
      · subst hij
        rw [if_pos ⟨rfl, hlen⟩]
        simp only [List.count_append]
        by_cases hxy : px = y
        · subst hxy
          simp
        · rw [if_neg (by tauto)]
          simp only [List.count_cons, List.count_nil, Nat.zero_add]
          rw [if_neg (by simpa using hxy)]
      · rw [if_neg (by tauto), if_neg (by tauto)]
        simp
    have hrest : ∀ q ∈ rest, q.1 < (restoreVal s pi px).vars.length := by
      intro q hq
      have : (restoreVal s pi px).vars.length = s.vars.length := by
        simp [restoreVal, List.length_set]
      rw [this]
      exact hps q (List.mem_cons_of_mem _ hq)
    have hcount : List.count (j, y) ((pi, px) :: rest)
        = rest.count (j, y) + (if pi = j ∧ px = y then 1 else 0) := by
      simp only [List.count_cons]
      congr 1
      by_cases h : pi = j ∧ px = y
      · rw [if_pos h, if_pos]
        simp only [beq_iff_eq, Prod.mk.injEq]
        tauto
      · rw [if_neg h, if_neg]
        simp only [beq_iff_eq, Prod.mk.injEq]
        tauto
    show cnt (restoreList (restoreVal s pi px) rest) j y = _
    rw [ih (restoreVal s pi px) hrest j y, hstep, hcount]
    omega

theorem restoreList_Qinv :
    ∀ (ps : List (VarId × Val)) (s : SState), Qinv s →
      (∀ p ∈ ps, p.2 ∈ (s.var p.1).dom) → Qinv (restoreList s ps) := by
  intro ps
  induction ps with
  | nil => intro s hq _; exact hq
  | cons p rest ih =>
    obtain ⟨pi, px⟩ := p
    intro s hq hmem
    have hq' : Qinv (restoreVal s pi px) := by
      refine Qinv_set s pi _ hq ⟨?_, (Qinv_var s hq pi).2⟩
      intro y hy
      rcases List.mem_append.mp hy with h | h
      · exact (Qinv_var s hq pi).1 y h
      · rw [List.mem_singleton] at h
        rw [h]
        exact hmem (pi, px) (List.mem_cons_self _ _)
    refine ih (restoreVal s pi px) hq' ?_
    intro q hq''
    rw [show ((restoreVal s pi px).var q.1).dom = (s.var q.1).dom from by
      rw [restoreVal_var]
      split
      · rename_i h
        rw [← h.1]
      · rfl]
    exact hmem q (List.mem_cons_of_mem _ hq'')

/-- Net effect of `restoreValues` applied after a propagation pass that
logged exactly `E` under the fresh reason key `(i, x)`: the undo dictionary
returns to its pre-propagation contents and every logged pair is appended
back into its variable's current domain. -/
theorem restoreValues_after (s₁ s₃ : SState) (i : VarId) (x : Val) (E : List (VarId × Val))
    (hfresh : undoLookup s₁.undo (i, x) = none)
    (hundo : s₃.undo = undoAddAll s₁.undo (i, x) E)
    (hvalid : ∀ p ∈ E, p.2 ∈ (s₃.var p.1).dom)
    (hq₃ : Qinv s₃) :
    (restoreValues s₃ i x).undo = s₁.undo ∧
    (∀ j y, cnt (restoreValues s₃ i x) j y = cnt s₃ j y + E.count (j, y)) ∧
    (∀ j, ((restoreValues s₃ i x).var j).value = (s₃.var j).value) ∧
    (∀ j, ((restoreValues s₃ i x).var j).dom = (s₃.var j).dom) ∧
    (restoreValues s₃ i x).sols = s₃.sols ∧
    (restoreValues s₃ i x).trace = s₃.trace ∧
    (restoreValues s₃ i x).errs = s₃.errs ∧
    (restoreValues s₃ i x).vars.length = s₃.vars.length ∧
    Qinv (restoreValues s₃ i x) := by
  cases E with
  | nil =>
    have hnone : undoLookup s₃.undo (i, x) = none := by
      rw [hundo]
      exact hfresh
    have hr : restoreValues s₃ i x = s₃ := by
      unfold restoreValues
      rw [hnone]
    rw [hr]
    exact ⟨hundo, fun j y => by simp, fun j => rfl, fun j => rfl, rfl, rfl, rfl, rfl, hq₃⟩
  | cons p ps =>
    have hundo' : s₃.undo = s₁.undo ++ [((i, x), p :: ps)] := by
      rw [hundo]
      exact undoAddAll_fresh (i, x) (p :: ps) s₁.undo hfresh (by simp)
    have hsome : undoLookup s₃.undo (i, x) = some (p :: ps) := by
      rw [hundo']
      exact undoLookup_append_self _ _ _ hfresh
    have hdel : undoDel s₃.undo (i, x) = s₁.undo := by
      rw [hundo']
      exact undoDel_append_self _ _ _ hfresh
    have hr : restoreValues s₃ i x
        = { restoreList s₃ (p :: ps) with undo := undoDel s₃.undo (i, x) } := by
      unfold restoreValues
      rw [hsome]
    have hrange : ∀ q ∈ p :: ps, q.1 < s₃.vars.length := by
      intro q hq
      exact lt_length_of_mem_dom s₃ (hvalid q hq)
    have hfields := restoreList_fields (p :: ps) s₃
    rw [hr]
    refine ⟨by rw [hdel], ?_, ?_, ?_, hfields.2.1, hfields.2.2.1, hfields.2.2.2.1,
      hfields.2.2.2.2, ?_⟩
    · intro j y
      exact restoreList_cnt (p :: ps) s₃ hrange j y
    · intro j
      exact restoreList_value (p :: ps) s₃ j
    · intro j
      exact restoreList_dom (p :: ps) s₃ j
    · exact restoreList_Qinv (p :: ps) s₃ hq₃ hvalid

theorem setValue_some_var (s : SState) (i : VarId) (x : Val) (hx : x ∈ (s.var i).dom)
    (j : VarId) :
    (setValue s i (some x)).var j =
      if i = j ∧ i < s.vars.length then { s.var i with value := some x } else s.var j := by
  simp only [setValue]
  rw [if_pos hx]
  simp only [SState.var]
  exact getD_set_var s.vars i j _

theorem setValue_none_var (s : SState) (i : VarId) (j : VarId) :
    (setValue s i none).var j =
      if i = j ∧ i < s.vars.length then { s.var i with value := none } else s.var j := by
  simp only [setValue, SState.var]
  exact getD_set_var s.vars i j _

theorem setValue_some_facts (s : SState) (i : VarId) (x : Val) (hx : x ∈ (s.var i).dom)
    (hq : Qinv s) :
    (setValue s i (some x)).undo = s.undo ∧
    (setValue s i (some x)).sols = s.sols ∧
    (setValue s i (some x)).trace = s.trace ∧
    (setValue s i (some x)).errs = s.errs ∧
    (setValue s i (some x)).vars.length = s.vars.length ∧
    (∀ j, j ≠ i → (setValue s i (some x)).var j = s.var j) ∧
    ((setValue s i (some x)).var i).value = some x ∧
    (∀ j, ((setValue s i (some x)).var j).dom = (s.var j).dom) ∧
    (∀ j y, cnt (setValue s i (some x)) j y = cnt s j y) ∧
    Qinv (setValue s i (some x)) := by
  have hlen := lt_length_of_mem_dom s hx
  have hvar := setValue_some_var s i x hx
  refine ⟨by simp [setValue, if_pos hx], by simp [setValue, if_pos hx],
    by simp [setValue, if_pos hx], by simp [setValue, if_pos hx],
    by simp [setValue, if_pos hx, List.length_set], ?_, ?_, ?_, ?_, ?_⟩
  · intro j hj
    rw [hvar j, if_neg (by tauto)]
  · rw [hvar i, if_pos ⟨rfl, hlen⟩]
  · intro j
    rw [hvar j]
    split
    · rename_i h
      rw [← h.1]
    · rfl
  · intro j y
    unfold cnt
    rw [hvar j]
    split
    · rename_i h
      rw [← h.1]
    · rfl
  · have : Qinv { s with vars := s.vars.set i { s.var i with value := some x } } :=
      Qinv_set s i _ hq ⟨(Qinv_var s hq i).1, fun y hy => by
        simp only at hy
        rw [← Option.some_inj.mp hy]
        exact hx⟩
    simpa [setValue, if_pos hx] using this

theorem undoKeys_addAll {u : List ((VarId × Val) × List (VarId × Val))}
    {k : VarId × Val} {E : List (VarId × Val)} (hfresh : undoLookup u k = none) :
    ∀ k', k' ∈ (undoAddAll u k E).map Prod.fst → k' ∈ u.map Prod.fst ∨ k' = k := by
  intro k' hk'
  cases E with
  | nil => exact Or.inl hk'
  | cons p ps =>
    rw [undoAddAll_fresh k (p :: ps) u hfresh (by simp)] at hk'
    rw [List.map_append, List.mem_append] at hk'
    rcases hk' with h | h
    · exact Or.inl h
    · simp only [List.map_cons, List.map_nil, List.mem_singleton] at h
      exact Or.inr h

theorem lookup_none_of_fst_not_mem {u : List ((VarId × Val) × List (VarId × Val))}
    {k : VarId × Val} (h : k ∉ u.map Prod.fst) : undoLookup u k = none := by
  rw [undoLookup_eq_none_iff]
  intro kv hkv he
  exact h (he ▸ List.mem_map_of_mem Prod.fst hkv)

/-! ### Relation composition helpers -/

theorem CoreRel_refl (s : SState) (hq : Qinv s) : CoreRel s s :=
  ⟨fun _ => rfl, rfl, Nat.le_refl _, fun _ _ => ⟨Nat.le_refl _, Nat.le_refl _⟩, hq,
    ⟨[], by simp, by simp⟩, rfl⟩

theorem CoreRel_trans {s₁ s₂ s₃ : SState} (h₁ : CoreRel s₁ s₂) (h₂ : CoreRel s₂ s₃) :
    CoreRel s₁ s₃ := by
  obtain ⟨hd₁, hu₁, he₁, hc₁, hq₁, ⟨t₁, ht₁, hh₁⟩, hl₁⟩ := h₁
  obtain ⟨hd₂, hu₂, he₂, hc₂, hq₂, ⟨t₂, ht₂, hh₂⟩, hl₂⟩ := h₂
  refine ⟨fun j => (hd₂ j).trans (hd₁ j), hu₂.trans hu₁, he₁.trans he₂, ?_, hq₂,
    ⟨t₁ ++ t₂, ?_, ?_⟩, hl₂.trans hl₁⟩
  · intro j y
    have c₁ := hc₁ j y
    have c₂ := hc₂ j y
    omega
  · rw [ht₂, ht₁, List.append_assoc]
  · intro e he
    rcases List.mem_append.mp he with h | h
    · exact hh₁ e h
    · exact hh₂ e h

theorem TryRel_refl (i : VarId) (s : SState) (hq : Qinv s) : TryRel i s s :=
  ⟨CoreRel_refl s hq, fun _ _ => rfl⟩

theorem TryRel_trans (i : VarId) {s₁ s₂ s₃ : SState} (h₁ : TryRel i s₁ s₂)
    (h₂ : TryRel i s₂ s₃) : TryRel i s₁ s₃ :=
  ⟨CoreRel_trans h₁.1 h₂.1, fun j hj => (h₂.2 j hj).trans (h₁.2 j hj)⟩

theorem poolShape_perm {l pool : List VarId} (h : PoolShape l pool) : pool.Perm l := by
  cases l with
  | nil =>
    rw [show pool = [] from h]
  | cons v rest =>
    obtain ⟨rest', hp, hperm⟩ := h
    subst hp
    exact List.Perm.trans List.perm_append_comm (hperm.cons v)

/-! ### The master invariant of the backtracking search

One simultaneous induction on fuel establishes, for every completed call of
`gacTryVal`, `gacValLoop` and `gac`: the undo dictionary and every original
domain return to their pre-call contents, assignments are restored (except,
for the two attempt-level functions, the attempted variable itself), and
every per-value current-domain count is at least its pre-call value,
exceeding it by at most the number of error messages printed during the
call. -/
theorem search_master :
    ∀ fuel : Nat,
      (∀ (i : VarId) (x : Val) (rest : List VarId) (csp : CSP) (s : SState)
        (pool : List VarId) (r : SState),
        HypV i rest s → x ∈ (s.var i).dom →
        gacTryVal fuel i x rest csp s = some (pool, r) →
        TryRel i s r ∧ pool.Perm rest ∧ (r.var i).value = some x) ∧
      (∀ (i : VarId) (vals : List Val) (rest : List VarId) (csp : CSP) (s : SState)
        (pool : List VarId) (r : SState),
        HypV i rest s → (∀ x ∈ vals, x ∈ (s.var i).dom) →
        gacValLoop fuel i vals rest csp s = some (pool, r) →
        TryRel i s r ∧ pool.Perm rest) ∧
      (∀ (l : List VarId) (csp : CSP) (s : SState) (pool : List VarId) (r : SState),
        HypG l s → gac fuel l csp s = some (pool, r) →
        GacRel s r ∧ PoolShape l pool) := by
  intro fuel
  induction fuel with
  | zero =>
    refine ⟨?_, ?_, ?_⟩
    · rintro i x rest csp s pool r - - h
      simp only [gacTryVal] at h
      cases h
    · rintro i vals rest csp s pool r - - h
      simp only [gacValLoop] at h
      cases h
    · rintro l csp s pool r - h
      simp only [gac] at h
      cases h
  | succ fuel ih =>
    obtain ⟨ihT, ihV, ihG⟩ := ih
    refine ⟨?_, ?_, ?_⟩
    -- one attempt: assign, propagate, maybe recurse, restore
    · rintro i x rest csp s pool r hV hx heq
      obtain ⟨hnd, hun, hni, hkeys, hikeys, hq⟩ := hV
      simp only [gacTryVal] at heq
      obtain ⟨h1undo, h1sols, h1trace, h1errs, h1len, h1ne, h1vi, h1dom, h1cnt, h1q⟩ :=
        setValue_some_facts s i x hx hq
      rcases henf : gacEnforce (fuel + 1) csp (constraintsOf csp i) i x (setValue s i (some x))
        with - | ⟨w, s₂⟩
      · rw [henf] at heq
        cases heq
      obtain ⟨E, hE⟩ := gacEnforce_enfRel (fuel + 1) csp (constraintsOf csp i) i x
        (setValue s i (some x)) w s₂ h1q henf
      obtain ⟨hEval, hEdom, hEundo, hEerrs, hEcnt, hEvalid, hEsols, hEtrace, hElen, hEq⟩ := hE
      have hfresh : undoLookup (setValue s i (some x)).undo (i, x) = none := by
        rw [h1undo]
        exact lookup_none_of_fst_not_mem (hikeys x)
      cases w with
      | true =>
        simp only [henf, Option.some.injEq, Prod.mk.injEq] at heq
        obtain ⟨hpool, hr⟩ := heq
        subst hpool
        subst hr
        have hvalid₂ : ∀ p ∈ E, p.2 ∈ (s₂.var p.1).dom := by
          intro p hp
          rw [hEdom p.1]
          exact hEvalid p hp
        obtain ⟨hRundo, hRcnt, hRval, hRdom, hRsols, hRtrace, hRerrs, hRlen, hRq⟩ :=
          restoreValues_after (setValue s i (some x)) s₂ i x E hfresh hEundo hvalid₂ hEq
        refine ⟨⟨⟨?_, ?_, ?_, ?_, hRq, ?_, ?_⟩, ?_⟩, List.Perm.refl _, ?_⟩
        · intro j
          rw [hRdom j, hEdom j, h1dom j]
        · rw [hRundo, h1undo]
        · rw [hRerrs]
          omega
        · intro j y
          have e1 := h1cnt j y
          have e2 := hEcnt j y
          have e4 := hRcnt j y
          rw [hRerrs]
          omega
        · exact ⟨[], by rw [hRtrace, hEtrace, h1trace, List.append_nil], by simp⟩
        · rw [hRlen, hElen, h1len]
        · intro j hj
          rw [hRval j, hEval j, h1ne j hj]
        · rw [hRval i, hEval i, h1vi]
      | false =>
        simp only [henf] at heq
        rcases hg : gac fuel rest csp s₂ with - | ⟨pool₃, s₃⟩
        · rw [hg] at heq
          cases heq
        simp only [hg, Option.some.injEq, Prod.mk.injEq] at heq
        obtain ⟨hpool, hr⟩ := heq
        subst hpool
        subst hr
        have hG2 : HypG rest s₂ := by
          refine ⟨hnd, ?_, ?_, hEq⟩
          · intro v hv
            have hvne : v ≠ i := fun hc => hni (hc ▸ hv)
            rw [hEval v, h1ne v hvne]
            exact hun v hv
          · rintro ⟨k1, k2⟩ hk
            unfold undoKeys at hk
            rw [hEundo] at hk
            rcases undoKeys_addAll hfresh (k1, k2) hk with hmem | hkK
            · have hmem' : (k1, k2) ∈ undoKeys s := by
                unfold undoKeys
                have : (setValue s i (some x)).undo = s.undo := h1undo
                rwa [this] at hmem
              have hkne : k1 ≠ i := by
                intro hc
                subst hc
                exact hikeys k2 hmem'
              rw [hEval k1, h1ne k1 hkne]
              exact hkeys (k1, k2) hmem'
            · have hk1 : k1 = i := congrArg Prod.fst hkK
              subst hk1
              rw [hEval k1, h1vi]
              simp
        obtain ⟨hGrel, hGshape⟩ := ihG rest csp s₂ pool₃ s₃ hG2 hg
        obtain ⟨⟨hGdom, hGundo, hGerrs, hGcnt, hGq, ⟨tG, hGtrace, hGhead⟩, hGlen⟩, hGval⟩ := hGrel
        have hundo₃ : s₃.undo = undoAddAll (setValue s i (some x)).undo (i, x) E := by
          rw [hGundo, hEundo]
        have hvalid₃ : ∀ p ∈ E, p.2 ∈ (s₃.var p.1).dom := by
          intro p hp
          rw [hGdom p.1, hEdom p.1]
          exact hEvalid p hp
        obtain ⟨hRundo, hRcnt, hRval, hRdom, hRsols, hRtrace, hRerrs, hRlen, hRq⟩ :=
          restoreValues_after (setValue s i (some x)) s₃ i x E hfresh hundo₃ hvalid₃ hGq
        refine ⟨⟨⟨?_, ?_, ?_, ?_, hRq, ?_, ?_⟩, ?_⟩, poolShape_perm hGshape, ?_⟩
        · intro j
          rw [hRdom j, hGdom j, hEdom j, h1dom j]
        · rw [hRundo, h1undo]
        · rw [hRerrs]
          omega
        · intro j y
          have e1 := h1cnt j y
          have e2 := hEcnt j y
          have e3 := hGcnt j y
          have e4 := hRcnt j y
          rw [hRerrs]
          omega
        · exact ⟨tG, by rw [hRtrace, hGtrace, hEtrace, h1trace], hGhead⟩
        · rw [hRlen, hGlen, hElen, h1len]
        · intro j hj
          rw [hRval j, hGval j, hEval j, h1ne j hj]
        · rw [hRval i, hGval i, hEval i, h1vi]
    -- the value loop of one frame
    · rintro i vals rest csp s pool r hV hvals heq
      cases vals with
      | nil =>
        simp only [gacValLoop, Option.some.injEq, Prod.mk.injEq] at heq
        obtain ⟨h1, h2⟩ := heq
        subst h1
        subst h2
        exact ⟨TryRel_refl i s hV.2.2.2.2.2, List.Perm.refl _⟩
      | cons x more =>
        simp only [gacValLoop] at heq
        rcases ht : gacTryVal fuel i x rest csp s with - | ⟨rest', s'⟩
        · rw [ht] at heq
          cases heq
        simp only [ht] at heq
        obtain ⟨hT, hTperm, -⟩ := ihT i x rest csp s rest' s' hV (hvals x (List.mem_cons_self _ _)) ht
        obtain ⟨hnd, hun, hni, hkeys, hikeys, hq⟩ := hV
        have hV' : HypV i rest' s' := by
          refine ⟨hTperm.symm.nodup hnd, ?_, ?_, ?_, ?_, hT.1.2.2.2.2.1⟩
          · intro v hv
            have hvr : v ∈ rest := hTperm.mem_iff.mp hv
            have hvne : v ≠ i := fun hc => hni (hc ▸ hvr)
            rw [hT.2 v hvne]
            exact hun v hvr
          · intro hc
            exact hni (hTperm.mem_iff.mp hc)
          · rintro ⟨k1, k2⟩ hk
            have hk' : (k1, k2) ∈ undoKeys s := by
              unfold undoKeys at *
              rwa [hT.1.2.1] at hk
            have hkne : k1 ≠ i := by
              intro hc
              subst hc
              exact hikeys k2 hk'
            rw [hT.2 k1 hkne]
            exact hkeys (k1, k2) hk'
          · intro x' hc
            refine hikeys x' ?_
            unfold undoKeys at *
            rwa [hT.1.2.1] at hc
        have hvals' : ∀ y ∈ more, y ∈ (s'.var i).dom := by
          intro y hy
          rw [hT.1.1 i]
          exact hvals y (List.mem_cons_of_mem _ hy)
        obtain ⟨hT2, hT2perm⟩ := ihV i more rest' csp s' pool r hV' hvals' heq
        exact ⟨TryRel_trans i hT hT2, hT2perm.trans hTperm⟩
    -- one frame of the search
    · rintro l csp s pool r hG heq
      obtain ⟨hnd, hun, hkeys, hq⟩ := hG
      cases l with
      | nil =>
        simp only [gac, Option.some.injEq, Prod.mk.injEq] at heq
        obtain ⟨h1, h2⟩ := heq
        subst h1
        subst h2
        exact ⟨⟨⟨fun _ => rfl, rfl, Nat.le_refl _, fun _ _ => ⟨Nat.le_refl _, Nat.le_refl _⟩,
          hq, ⟨[], by simp, by simp⟩, rfl⟩, fun _ => rfl⟩, rfl⟩
      | cons i rest =>
        simp only [gac] at heq
        rcases hvl : gacValLoop fuel i ((s.var i).curDomain) rest csp
            { s with trace := s.trace ++ [(i, i :: rest)] } with - | ⟨pool₁, s₁⟩
        · rw [hvl] at heq
          cases heq
        simp only [hvl, Option.some.injEq, Prod.mk.injEq] at heq
        obtain ⟨hpool, hr⟩ := heq
        subst hr
        have hVt : HypV i rest { s with trace := s.trace ++ [(i, i :: rest)] } := by
          refine ⟨(List.nodup_cons.mp hnd).2, ?_, (List.nodup_cons.mp hnd).1, ?_, ?_, hq⟩
          · intro v hv
            exact hun v (List.mem_cons_of_mem _ hv)
          · intro k hk
            exact hkeys k hk
          · intro x' hc
            exact (hkeys (i, x') hc) (hun i (List.mem_cons_self _ _))
        have hvalsc : ∀ x ∈ (s.var i).curDomain,
            x ∈ (SState.var { s with trace := s.trace ++ [(i, i :: rest)] } i).dom :=
          fun x hx => curDomain_subset_dom s hq i x hx
        obtain ⟨hT, hperm⟩ := ihV i ((s.var i).curDomain) rest csp _ pool₁ s₁ hVt hvalsc hvl
        obtain ⟨⟨hTdom, hTundo, hTerrs, hTcnt, hTq, ⟨tT, hTtrace, hThead⟩, hTlen⟩, hTval⟩ := hT
        have hlen₁ : s₁.vars.length = s.vars.length := hTlen
        have hrvar : ∀ j, (setValue s₁ i none).var j =
            if i = j ∧ i < s₁.vars.length then { s₁.var i with value := none } else s₁.var j :=
          setValue_none_var s₁ i
        have hrdom : ∀ j, ((setValue s₁ i none).var j).dom = (s₁.var j).dom := by
          intro j
          rw [hrvar j]
          split
          · rename_i h
            rw [← h.1]
          · rfl
        have hrcnt : ∀ j y, cnt (setValue s₁ i none) j y = cnt s₁ j y := by
          intro j y
          unfold cnt
          rw [hrvar j]
          split
          · rename_i h
            rw [← h.1]
          · rfl
        refine ⟨⟨⟨?_, ?_, ?_, ?_, ?_, ?_, ?_⟩, ?_⟩, pool₁, hpool.symm, hperm⟩
        · intro j
          rw [hrdom j, hTdom j]
          rfl
        · exact hTundo
        · exact hTerrs
        · intro j y
          rw [hrcnt j y]
          exact hTcnt j y
        · have : Qinv { s₁ with vars := s₁.vars.set i { s₁.var i with value := none } } :=
            Qinv_set s₁ i _ hTq ⟨(Qinv_var s₁ hTq i).1, fun y hy => by cases hy⟩
          exact this
        · refine ⟨(i, i :: rest) :: tT, ?_, ?_⟩
          · show (setValue s₁ i none).trace = _
            have h0 : (setValue s₁ i none).trace = s₁.trace := rfl
            rw [h0, hTtrace]
            show (s.trace ++ [(i, i :: rest)]) ++ tT = s.trace ++ (i, i :: rest) :: tT
            rw [List.append_assoc]
            rfl
          · intro e he
            rcases List.mem_cons.mp he with h | h
            · subst h
              rfl
            · exact hThead e h
        · show (setValue s₁ i none).vars.length = s.vars.length
          have : (setValue s₁ i none).vars.length = s₁.vars.length := by
            simp [setValue, List.length_set]
          rw [this, hlen₁]
        · intro j
          by_cases hij : j = i
          · subst hij
            rcases Nat.lt_or_ge j s.vars.length with hlt | hge
            · rw [hrvar j, if_pos ⟨rfl, by rw [hlen₁]; exact hlt⟩]
              exact (hun j (List.mem_cons_self _ _)).symm
            · have hge₁ : s₁.vars.length ≤ j := by
                rw [hlen₁]
                exact hge
              rw [hrvar j, if_neg (fun h => absurd h.2 (Nat.not_lt.mpr hge₁)),
                var_of_length_le s₁ j hge₁, var_of_length_le s j hge]
          · rw [hrvar j, if_neg (by tauto)]
            exact hTval j hij

/-! ### Claims C2, C3, C5, C10: the search-level properties -/

theorem initState_value (doms : List (List Val)) (j : Nat) :
    ((initState doms).var j).value = none := by
  unfold initState SState.var
  rcases Nat.lt_or_ge j (doms.map initVar).length with h | h
  · rw [List.getD_eq_getElem _ _ h]
    simp [initVar]
  · rw [List.getD_eq_getElem?_getD, List.getElem?_eq_none (by simpa using h)]
    rfl

theorem initState_curdom_eq_dom (doms : List (List Val)) (j : Nat) :
    ((initState doms).var j).curdom = ((initState doms).var j).dom := by
  unfold initState SState.var
  rcases Nat.lt_or_ge j (doms.map initVar).length with h | h
  · rw [List.getD_eq_getElem _ _ h]
    simp [initVar]
  · rw [List.getD_eq_getElem?_getD, List.getElem?_eq_none (by simpa using h)]
    rfl

theorem initState_Qinv (doms : List (List Val)) : Qinv (initState doms) := by
  intro v hv
  simp only [initState, List.mem_map] at hv
  obtain ⟨d, -, rfl⟩ := hv
  exact ⟨fun x hx => hx, fun y hy => by simp [initVar] at hy⟩

theorem initState_HypG (doms : List (List Val)) (l : List VarId) (hnd : l.Nodup) :
    HypG l (initState doms) := by
  refine ⟨hnd, fun v _ => initState_value doms v, ?_, initState_Qinv doms⟩
  intro k hk
  simp [undoKeys, initState] at hk

/-- C2 amended: starting from a freshly constructed CSP state (every
variable unassigned, current domains equal to original domains, empty undo
dictionary) with a duplicate-free unassigned-variable list, when the
top-level search call returns: the undo dictionary is empty again, every
variable is unassigned, original domains are untouched, and every variable's
current domain contains exactly the values of its original domain (set
equality).  The current domain need NOT equal the original domain as a list:
restored values are appended at the end, and a value whose prune found it
absent is logged and restored anyway, duplicating it — as in the
counterexample, where a current domain ends as `[1, 2, 2]`. -/
theorem claim_C2_search_restores (fuel : Nat) (csp : CSP) (doms : List (List Val))
    (l pool : List VarId) (r : SState) (hnd : l.Nodup)
    (hrun : gac fuel l csp (initState doms) = some (pool, r)) :
    r.undo = [] ∧ (∀ j, (r.var j).value = none) ∧
    (∀ j, (r.var j).dom = ((initState doms).var j).dom) ∧
    (∀ j x, x ∈ (r.var j).curdom ↔ x ∈ (r.var j).dom) := by
  obtain ⟨⟨⟨hdom, hundo, herrs, hcnt, hqr, htr, hlen⟩, hval⟩, -⟩ :=
    (search_master fuel).2.2 l csp (initState doms) pool r (initState_HypG doms l hnd) hrun
  refine ⟨by rw [hundo]; rfl, fun j => by rw [hval j]; exact initState_value doms j,
    fun j => hdom j, ?_⟩
  intro j x
  constructor
  · intro hx
    exact (Qinv_var r hqr j).1 x hx
  · intro hx
    have hx₀ : x ∈ ((initState doms).var j).curdom := by
      rw [initState_curdom_eq_dom, ← hdom j]
      exact hx
    have h1 : 0 < List.count x ((initState doms).var j).curdom :=
      List.count_pos_iff.mpr hx₀
    have h2 := (hcnt j x).1
    simp only [cnt] at h2
    exact List.count_pos_iff.mp (by omega)

/-- Closed witness for the C2 theorem at a one-variable CSP with no
constraints. -/
theorem claim_C2_witness :
    (⟨[⟨[1], [1], none⟩], [], [[some 1]], [(0, [0])], 0⟩ : SState).undo = [] ∧
    ((⟨[⟨[1], [1], none⟩], [], [[some 1]], [(0, [0])], 0⟩ : SState).var 0).value = none := by
  have h := claim_C2_search_restores 5 [] [[1]] [0] [0]
    ⟨[⟨[1], [1], none⟩], [], [[some 1]], [(0, [0])], 0⟩ (by decide) (by rfl)
  exact ⟨h.1, h.2.1 0⟩

/-- C2 counterexample: on `cspDup` (variable 0 with domain `[1,2]`, an
arity-1 table constraint allowing only 1, and a second constraint linking it
to variable 1), the full search returns with variable 0's current domain
equal to `[1, 2, 2]`: the value 2 was pruned once with an actual removal and
once more futilely (on the assigned variable, with an error printed), and
both log entries were restored.  The final current domain is therefore not
equal to the original domain `[1, 2]` — not even with multiplicities — so
the claim's "every variable's current domain equals its original domain" is
false as stated; only set equality survives. -/
theorem claim_C2_counterexample :
    gac 60 [0, 1] cspDup (initState [[1, 2], [5]])
      = some ([1, 0], ⟨[⟨[1, 2], [1, 2, 2], none⟩, ⟨[5], [5], none⟩], [],
          [[some 1, some 5]], [(0, [0, 1]), (1, [1])], 1⟩) ∧
    ([1, 2, 2] : List Val) ≠ [1, 2] ∧
    List.count (2 : Val) [1, 2, 2] ≠ List.count (2 : Val) [1, 2] := by
  exact ⟨rfl, by decide, by decide⟩

/-- C3 amended: the two concrete enumeration scenarios of the claim hold —
on the not-equal CSP the sink is invoked exactly twice, first with
`A=1, B=2` and then with `A=2, B=1`, and on the CSP allowing only `[1,1]`
exactly once with `A=1, B=1`; the recorded solutions satisfy all
constraints.  (The general sentence fails: see the counterexample, in which
the sink is also invoked on an assignment violating a constraint.) -/
theorem claim_C3_enumeration_scenarios :
    gac 40 [0, 1] cspNeq (initState [[1, 2], [1, 2]])
      = some ([1, 0], ⟨[⟨[1, 2], [1, 2], none⟩, ⟨[1, 2], [1, 2], none⟩], [],
          [[some 1, some 2], [some 2, some 1]], [(0, [0, 1]), (1, [1]), (1, [1])], 0⟩) ∧
    gac 40 [0, 1] cspPair11 (initState [[1, 2], [1, 2]])
      = some ([1, 0], ⟨[⟨[1, 2], [1, 2], none⟩, ⟨[1, 2], [1, 2], none⟩], [],
          [[some 1, some 1]], [(0, [0, 1]), (1, [1])], 0⟩) ∧
    checkSolution cspNeq [some 1, some 2] = true ∧
    checkSolution cspNeq [some 2, some 1] = true ∧
    checkSolution cspPair11 [some 1, some 1] = true := by
  exact ⟨rfl, rfl, rfl, rfl, rfl⟩

/-- C3 counterexample: on a CSP with a single variable of domain `[1,2]`
and one arity-1 table constraint allowing only the value 1, the search
invokes the sink twice — once with the satisfying assignment `{A:1}` and
once with `{A:2}`, which violates the constraint.  The violation goes
unnoticed because pruning the assigned variable's value does not trigger a
wipeout (`curDomainSize()` is 1 for an assigned variable), so the sink is
not invoked exactly once per complete assignment satisfying all
constraints. -/
theorem claim_C3_counterexample :
    gac 40 [0] cspUnary (initState [[1, 2]])
      = some ([0], ⟨[⟨[1, 2], [1, 2], none⟩], [], [[some 1], [some 2]], [(0, [0])], 0⟩) ∧
    checkSolution cspUnary [some 2] = false ∧
    checkSolution cspUnary [some 1] = true := by
  exact ⟨rfl, rfl, rfl⟩

/-- C5 amended: for an attempt `(variable, value)` made under the search's
invariants (pool variables unassigned and duplicate-free, undo keys
belonging to assigned variables, no undo key yet for the attempted variable,
healthy domains, attempted value in the original domain), after the
attempt's restore step runs — whether propagation succeeded or wiped out —
the undo dictionary is back to its pre-attempt contents (the reason key
removed, every pair logged under it appended back), every other variable's
assignment is as before the attempt, and the attempted variable remains
assigned to the attempted value until its value loop finishes.  Every
current-domain value count is at least its pre-attempt value, and if no
error message was printed during the attempt (every prune removed a value
that was present), the current domains are restored exactly as multisets —
list order may still differ, and a futile prune duplicates its value, as in
the counterexample. -/
theorem claim_C5_attempt_restores (fuel : Nat) (i : VarId) (x : Val) (rest : List VarId)
    (csp : CSP) (s : SState) (pool : List VarId) (r : SState)
    (hV : HypV i rest s) (hx : x ∈ (s.var i).dom)
    (hrun : gacTryVal fuel i x rest csp s = some (pool, r)) :
    r.undo = s.undo ∧
    (r.var i).value = some x ∧
    (∀ j, j ≠ i → (r.var j).value = (s.var j).value) ∧
    (∀ j y, List.count y (s.var j).curdom ≤ List.count y (r.var j).curdom) ∧
    (r.errs = s.errs →
      ∀ j y, List.count y (r.var j).curdom = List.count y (s.var j).curdom) := by
  obtain ⟨⟨⟨hdom, hundo, herrs, hcnt, hqr, htr, hlen⟩, hval⟩, hperm, hvi⟩ :=
    (search_master fuel).1 i x rest csp s pool r hV hx hrun
  refine ⟨hundo, hvi, hval, ?_, ?_⟩
  · intro j y
    have h1 := (hcnt j y).1
    simp only [cnt] at h1
    exact h1
  · intro herr j y
    have h1 := (hcnt j y).1
    have h2 := (hcnt j y).2
    simp only [cnt] at h1 h2
    omega

/-- Closed witness for the C5 theorem: the attempt `(0, 1)` on the
not-equal CSP from the initial state (which prunes `B=1`, recurses to the
solution `A=1, B=2`, and restores). -/
theorem claim_C5_witness :
    (⟨[⟨[1, 2], [1, 2], some 1⟩, ⟨[1, 2], [2, 1], none⟩], [], [[some 1, some 2]],
        [(1, [1])], 0⟩ : SState).undo = [] ∧
    ((⟨[⟨[1, 2], [1, 2], some 1⟩, ⟨[1, 2], [2, 1], none⟩], [], [[some 1, some 2]],
        [(1, [1])], 0⟩ : SState).var 0).value = some 1 := by
  have h := claim_C5_attempt_restores 30 0 1 [1] cspNeq (initState [[1, 2], [1, 2]]) [1]
    ⟨[⟨[1, 2], [1, 2], some 1⟩, ⟨[1, 2], [2, 1], none⟩], [], [[some 1, some 2]],
        [(1, [1])], 0⟩
    ⟨by decide, by decide, by decide,
      fun k hk => by simp [undoKeys, initState] at hk,
      fun x' hc => by simp [undoKeys, initState] at hc,
      initState_Qinv [[1, 2], [1, 2]]⟩
    (by decide) (by rfl)
  exact ⟨h.1, h.2.1⟩

/-- C5 counterexample: the attempt `(0, 2)` on `cspDup` from the state
`preAttempt` reached just before it.  During propagation the assigned value
2 is pruned once with removal and once futilely (error printed), both logged
under the reason key `(0, 2)`; the restore step appends both copies back, so
after the attempt variable 0's current domain is `[1, 2, 2]` while
immediately before the attempt it was `[1, 2]` — the domains are not
identical, refuting the claim as stated.  (The attempted variable also
remains assigned to 2 after the restore step.) -/
theorem claim_C5_counterexample :
    gacTryVal 50 0 2 [1] cspDup preAttempt
      = some ([1], ⟨[⟨[1, 2], [1, 2, 2], some 2⟩, ⟨[5], [5], none⟩], [],
          [[some 1, some 5]], [(0, [0, 1]), (1, [1])], 1⟩) ∧
    (preAttempt.var 0).curdom = [1, 2] ∧
    ([1, 2, 2] : List Val) ≠ [1, 2] := by
  exact ⟨rfl, rfl, by decide⟩

/-- C10 amended: each frame of the search selects the variable at the FRONT
of the current unassigned-variable pool (every recorded selection is the
head of the pool it was popped from), and after exhausting its values the
variable is unassigned and returned to the BACK of the pool (the returned
pool is a permutation of the rest followed by the selected variable) before
the frame returns to its caller.  Because the pool is rotated rather than
kept in the originally supplied order, later decision points need not select
the earliest variable in that original order. -/
theorem claim_C10_frame (fuel : Nat) (i : VarId) (rest : List VarId) (csp : CSP)
    (s : SState) (pool : List VarId) (r : SState)
    (hG : HypG (i :: rest) s)
    (hrun : gac fuel (i :: rest) csp s = some (pool, r)) :
    (∃ rest', pool = rest' ++ [i] ∧ rest'.Perm rest) ∧
    (r.var i).value = none ∧
    (∃ t, r.trace = s.trace ++ t ∧ ∀ e ∈ t, e.2.head? = some e.1) := by
  obtain ⟨⟨⟨hdom, hundo, herrs, hcnt, hqr, htr, hlen⟩, hval⟩, hshape⟩ :=
    (search_master fuel).2.2 (i :: rest) csp s pool r hG hrun
  refine ⟨hshape, ?_, htr⟩
  rw [hval i]
  exact hG.2.1 i (List.mem_cons_self _ _)

/-- Closed witness for the C10 theorem at a one-variable CSP. -/
theorem claim_C10_witness :
    ((⟨[⟨[1], [1], none⟩], [], [[some 1]], [(0, [0])], 0⟩ : SState).var 0).value = none := by
  have h := claim_C10_frame 5 0 [] [] (initState [[1]]) [0]
    ⟨[⟨[1], [1], none⟩], [], [[some 1]], [(0, [0])], 0⟩
    (initState_HypG [[1]] [0] (by decide)) (by rfl)
  exact h.2.1

/-- C10 counterexample: three variables, no constraints; variable 0 has two
values, so its frame runs two branches.  The recorded selection trace is
`[(0,[0,1,2]), (1,[1,2]), (2,[2]), (2,[2,1]), (1,[1])]`: at the fourth
decision point the still-unassigned pool is `[2,1]` and the search selects
variable 2, although variable 1 comes earlier in the originally supplied
order `[0,1,2]` — refuting the claim that every decision point selects the
earliest still-unassigned variable in the original order. -/
theorem claim_C10_counterexample :
    gac 60 [0, 1, 2] ([] : CSP) (initState [[0, 1], [0], [0]])
      = some ([1, 2, 0], ⟨[⟨[0, 1], [0, 1], none⟩, ⟨[0], [0], none⟩, ⟨[0], [0], none⟩], [],
          [[some 0, some 0, some 0], [some 1, some 0, some 0]],
          [(0, [0, 1, 2]), (1, [1, 2]), (2, [2]), (2, [2, 1]), (1, [1])], 0⟩) ∧
    selectionEarliest [0, 1, 2]
      [(0, [0, 1, 2]), (1, [1, 2]), (2, [2]), (2, [2, 1]), (1, [1])] = false := by
  exact ⟨rfl, by decide⟩

end Battle
